import Mathlib

/-!
# Verification of the JSONL viewer core (`src/main.py`)

A shallow embedding of the data-processing core of the JSONL viewer:

* `Json`, `dumpsL`/`dumps` — the JSON values produced by `json.loads` and the
  serialization produced by `json.dumps(value, ensure_ascii=False)` with the
  default separators.  Floating-point JSON numbers are not modelled (the
  claims under consideration do not involve them); a line whose number
  contains a fraction or exponent is treated as unparseable by the model.
* `parseVal`/`loads` — an executable model of `json.loads` (fuel-based
  recursive-descent over the character list).
* `runLines`/`runLoader` — the ingestion loop of `FileLoaderThread.run`
  (src/main.py lines 85-143): line numbering, blank-line skipping, the
  statistics dictionary, schema aggregation, the emitted signal sequence,
  the cooperative stop flag, the `max_lines` cutoff and the file-open
  failure path.
* `apply_filters` — the filter engine of `JSONLViewer.apply_filters`
  (src/main.py lines 555-597), with the regex engine abstracted as a
  `compile` function (Python's `re` module is external to the repository;
  only the success/failure of compilation and the boolean outcome of
  `pattern.search` matter to the claims).
* `export_filtered` — the JSONL export of `JSONLViewer.export_filtered`
  (src/main.py lines 636-648).
-/

/-- JSON values as produced by `json.loads`.  Python `float` values are not
modelled; all other value shapes are.  Object fields keep insertion order,
mirroring Python dicts. -/
inductive Json where
  | null : Json
  | bool (b : Bool) : Json
  | int (n : Int) : Json
  | str (s : String) : Json
  | arr (elems : List Json) : Json
  | obj (fields : List (String × Json)) : Json
deriving Repr

mutual

/-- Structural equality of JSON values (Python `==` on parsed values). -/
def Json.beq : Json → Json → Bool
  | .null, .null => true
  | .bool a, .bool b => a == b
  | .int a, .int b => a == b
  | .str a, .str b => a == b
  | .arr a, .arr b => Json.beqList a b
  | .obj a, .obj b => Json.beqFields a b
  | _, _ => false

def Json.beqList : List Json → List Json → Bool
  | [], [] => true
  | a :: as, b :: bs => Json.beq a b && Json.beqList as bs
  | _, _ => false

def Json.beqFields : List (String × Json) → List (String × Json) → Bool
  | [], [] => true
  | a :: as, b :: bs => (a.1 == b.1) && Json.beq a.2 b.2 && Json.beqFields as bs
  | _, _ => false

end

instance : BEq Json := ⟨Json.beq⟩

/-- Keys of an association list are pairwise distinct (the invariant every
Python dict satisfies by construction). -/
def keysDistinct : List (String × Json) → Bool
  | [] => true
  | (k, _) :: fs => !(fs.any (fun p => p.1 == k)) && keysDistinct fs

mutual

/-- Well-formedness: every object that occurs inside the value has pairwise
distinct keys.  Every value produced by `loads` is well-formed, because
Python dicts cannot hold duplicate keys. -/
def Json.wfB : Json → Bool
  | .null => true
  | .bool _ => true
  | .int _ => true
  | .str _ => true
  | .arr xs => Json.wfListB xs
  | .obj fs => keysDistinct fs && Json.wfFieldsB fs

def Json.wfListB : List Json → Bool
  | [] => true
  | x :: xs => Json.wfB x && Json.wfListB xs

def Json.wfFieldsB : List (String × Json) → Bool
  | [] => true
  | (_, v) :: fs => Json.wfB v && Json.wfFieldsB fs

end

/-! ## Serialization: `json.dumps(value, ensure_ascii=False)` -/

/-- Decimal digit characters. -/
def digitChar : Nat → Char
  | 0 => '0'
  | 1 => '1'
  | 2 => '2'
  | 3 => '3'
  | 4 => '4'
  | 5 => '5'
  | 6 => '6'
  | 7 => '7'
  | 8 => '8'
  | 9 => '9'
  | _ => '0'

/-- Lower-case hexadecimal digit characters (as emitted by `json.dumps` in
`\u00XX` escapes). -/
def hexChar : Nat → Char
  | 0 => '0'
  | 1 => '1'
  | 2 => '2'
  | 3 => '3'
  | 4 => '4'
  | 5 => '5'
  | 6 => '6'
  | 7 => '7'
  | 8 => '8'
  | 9 => '9'
  | 10 => 'a'
  | 11 => 'b'
  | 12 => 'c'
  | 13 => 'd'
  | 14 => 'e'
  | 15 => 'f'
  | _ => '0'

/-- Little-endian decimal digits of a natural number (fuel-based). -/
def toDigitsRev : Nat → Nat → List Nat
  | 0, _ => []
  | fuel + 1, n => if n < 10 then [n] else n % 10 :: toDigitsRev fuel (n / 10)

/-- Decimal rendering of a natural number. -/
def natToChars (n : Nat) : List Char :=
  ((toDigitsRev (n + 1) n).reverse).map digitChar

/-- Decimal rendering of a Python integer (`repr(n)`). -/
def intToChars (n : Int) : List Char :=
  if n < 0 then '-' :: natToChars n.natAbs else natToChars n.toNat

/-- The escape sequence `json.dumps` emits for one character of a string
(`ensure_ascii=False`): `"` and `\` are escaped, the named control
characters use their short escapes, all other control characters use
`\u00XX`, and everything else passes through verbatim. -/
def escChar (c : Char) : List Char :=
  if c = '"' then ['\\', '"']
  else if c = '\\' then ['\\', '\\']
  else if c = '\n' then ['\\', 'n']
  else if c = '\t' then ['\\', 't']
  else if c = '\r' then ['\\', 'r']
  else if c = '\x08' then ['\\', 'b']
  else if c = '\x0c' then ['\\', 'f']
  else if c.toNat < 32 then
    ['\\', 'u', '0', '0', hexChar (c.toNat / 16), hexChar (c.toNat % 16)]
  else [c]

/-- String-body escaping used by `json.dumps`. -/
def escapeL (cs : List Char) : List Char := (cs.map escChar).flatten

mutual

/-- `json.dumps(v, ensure_ascii=False)` with the default separators
`", "` and `": "`, as a character list. -/
def dumpsL : Json → List Char
  | .null => "null".data
  | .bool true => "true".data
  | .bool false => "false".data
  | .int n => intToChars n
  | .str s => '"' :: (escapeL s.data ++ ['"'])
  | .arr [] => ['[', ']']
  | .arr (x :: xs) => '[' :: (dumpsL x ++ dumpsArrTail xs)
  | .obj [] => ['{', '}']
  | .obj (f :: fs) => '{' :: (dumpsMember f ++ dumpsObjTail fs)

/-- Serialization of the remaining array elements, including the closing
bracket. -/
def dumpsArrTail : List Json → List Char
  | [] => [']']
  | x :: xs => ',' :: ' ' :: (dumpsL x ++ dumpsArrTail xs)

/-- Serialization of one object member, `"key": value`. -/
def dumpsMember : String × Json → List Char
  | (k, v) => '"' :: (escapeL k.data ++ ('"' :: ':' :: ' ' :: dumpsL v))

/-- Serialization of the remaining object members, including the closing
brace. -/
def dumpsObjTail : List (String × Json) → List Char
  | [] => ['}']
  | f :: fs => ',' :: ' ' :: (dumpsMember f ++ dumpsObjTail fs)

end

/-- `json.dumps(v, ensure_ascii=False)` as a `String`. -/
def dumps (v : Json) : String := String.mk (dumpsL v)

/-! ## Parsing: `json.loads` -/

/-- The whitespace characters the JSON grammar skips between tokens. -/
def isJsonWs (c : Char) : Bool :=
  c == ' ' || c == '\t' || c == '\n' || c == '\r'

/-- Skip inter-token whitespace. -/
def skipWs (cs : List Char) : List Char := cs.dropWhile isJsonWs

/-- Numeric value of a decimal digit character, if it is one. -/
def digitVal (c : Char) : Option Nat :=
  if 48 ≤ c.toNat ∧ c.toNat ≤ 57 then some (c.toNat - 48) else none

/-- Numeric value of a hexadecimal digit character, if it is one. -/
def hexVal (c : Char) : Option Nat :=
  if 48 ≤ c.toNat ∧ c.toNat ≤ 57 then some (c.toNat - 48)
  else if 97 ≤ c.toNat ∧ c.toNat ≤ 102 then some (c.toNat - 87)
  else if 65 ≤ c.toNat ∧ c.toNat ≤ 70 then some (c.toNat - 55)
  else none

/-- Decoding of a single-character string escape (`\"`, `\\`, `\/`, `\b`,
`\f`, `\n`, `\r`, `\t`). -/
def escDecode (c : Char) : Option Char :=
  if c = '"' then some '"'
  else if c = '\\' then some '\\'
  else if c = '/' then some '/'
  else if c = 'b' then some '\x08'
  else if c = 'f' then some '\x0c'
  else if c = 'n' then some '\n'
  else if c = 'r' then some '\r'
  else if c = 't' then some '\t'
  else none

/-- Parse the body of a JSON string literal (the opening quote already
consumed), returning the decoded characters and the input after the closing
quote.  Unescaped control characters are rejected, as in Python's strict
decoder. -/
def parseStrBody : List Char → Option (List Char × List Char)
  | [] => none
  | c :: rest =>
    if c = '"' then some ([], rest)
    else if c = '\\' then
      match rest with
      | [] => none
      | e :: r =>
        if e = 'u' then
          match r with
          | h1 :: h2 :: h3 :: h4 :: r2 =>
            match hexVal h1, hexVal h2, hexVal h3, hexVal h4 with
            | some a, some b, some c2, some d =>
              match parseStrBody r2 with
              | some (s, rem) =>
                some (Char.ofNat (((a * 16 + b) * 16 + c2) * 16 + d) :: s, rem)
              | none => none
            | _, _, _, _ => none
          | _ => none
        else
          match escDecode e with
          | some ch =>
            match parseStrBody r with
            | some (s, rem) => some (ch :: s, rem)
            | none => none
          | none => none
    else if c.toNat < 32 then none
    else
      match parseStrBody rest with
      | some (s, rem) => some (c :: s, rem)
      | none => none

/-- Accumulate decimal digits (left-to-right), stopping at the first
non-digit. -/
def parseDigits (acc : Nat) : List Char → Nat × List Char
  | [] => (acc, [])
  | c :: rest =>
    match digitVal c with
    | some d => parseDigits (acc * 10 + d) rest
    | none => (acc, c :: rest)

/-- Reject a number that continues with a fraction or exponent: such numbers
are Python `float`s, which this model does not represent. -/
def guardIntTail (v : Nat) (r : List Char) : Option (Nat × List Char) :=
  match r with
  | [] => some (v, [])
  | c :: _ => if c = '.' ∨ c = 'e' ∨ c = 'E' then none else some (v, r)

/-- Parse the integer part of a JSON number (no sign).  A leading `0` may
not be followed by further digits, per the JSON grammar; the surrounding
structural parser then rejects the leftover digits exactly as Python's
scanner does. -/
def parseNumber : List Char → Option (Nat × List Char)
  | [] => none
  | c :: rest =>
    if c = '0' then guardIntTail 0 rest
    else
      match digitVal c with
      | some d =>
        match parseDigits d rest with
        | (v, r) => guardIntTail v r
      | none => none

/-- Insert a parsed member into the object under construction with Python
dict semantics: an existing key is overwritten in place, a new key is
appended. -/
def insertKey (fs : List (String × Json)) (k : String) (v : Json) :
    List (String × Json) :=
  match fs with
  | [] => [(k, v)]
  | (k0, v0) :: rest =>
    if k0 == k then (k0, v) :: rest else (k0, v0) :: insertKey rest k v

/-- Build a Python dict from the parsed member list (later duplicates
overwrite earlier ones, first occurrence keeps its position). -/
def mkDict (ms : List (String × Json)) : List (String × Json) :=
  ms.foldl (fun acc m => insertKey acc m.1 m.2) []

mutual

/-- Fuel-based recursive-descent parser for a JSON value, modelling
Python's `json` scanner.  Returns the value and the unconsumed input. -/
def parseVal (fuel : Nat) (cs : List Char) : Option (Json × List Char) :=
  match fuel with
  | 0 => none
  | fuel + 1 =>
    match skipWs cs with
    | [] => none
    | c :: rest =>
      if c == 'n' then
        match rest with
        | 'u' :: 'l' :: 'l' :: r => some (.null, r)
        | _ => none
      else if c == 't' then
        match rest with
        | 'r' :: 'u' :: 'e' :: r => some (.bool true, r)
        | _ => none
      else if c == 'f' then
        match rest with
        | 'a' :: 'l' :: 's' :: 'e' :: r => some (.bool false, r)
        | _ => none
      else if c == '"' then
        match parseStrBody rest with
        | some (s, r) => some (.str (String.mk s), r)
        | none => none
      else if c == '[' then parseArrBody fuel (skipWs rest)
      else if c == '{' then parseObjBody fuel (skipWs rest)
      else if c == '-' then
        match parseNumber rest with
        | some (m, r) => some (.int (-(m : Int)), r)
        | none => none
      else
        match parseNumber (c :: rest) with
        | some (m, r) => some (.int (m : Int), r)
        | none => none

/-- Parse an array body (the opening bracket and following whitespace
already consumed). -/
def parseArrBody (fuel : Nat) (cs : List Char) : Option (Json × List Char) :=
  match fuel with
  | 0 => none
  | fuel + 1 =>
    match cs with
    | ']' :: r => some (.arr [], r)
    | _ =>
      match parseVal fuel cs with
      | some (x, r) =>
        match parseArrTail fuel r with
        | some (xs, r2) => some (.arr (x :: xs), r2)
        | none => none
      | none => none

/-- Parse the remainder of an array after an element: a `,`-separated list
of further elements terminated by `]`. -/
def parseArrTail (fuel : Nat) (cs : List Char) : Option (List Json × List Char) :=
  match fuel with
  | 0 => none
  | fuel + 1 =>
    match skipWs cs with
    | ']' :: r => some ([], r)
    | ',' :: r =>
      match parseVal fuel r with
      | some (x, r2) =>
        match parseArrTail fuel r2 with
        | some (xs, r3) => some (x :: xs, r3)
        | none => none
      | none => none
    | _ => none

/-- Parse an object body (the opening brace and following whitespace
already consumed). -/
def parseObjBody (fuel : Nat) (cs : List Char) : Option (Json × List Char) :=
  match fuel with
  | 0 => none
  | fuel + 1 =>
    match cs with
    | '}' :: r => some (.obj [], r)
    | '"' :: r =>
      match parseMember fuel r with
      | some (m, r2) =>
        match parseObjTail fuel r2 with
        | some (ms, r3) => some (.obj (mkDict (m :: ms)), r3)
        | none => none
      | none => none
    | _ => none

/-- Parse one object member, starting just after the opening quote of the
key. -/
def parseMember (fuel : Nat) (cs : List Char) :
    Option ((String × Json) × List Char) :=
  match fuel with
  | 0 => none
  | fuel + 1 =>
    match parseStrBody cs with
    | some (k, r) =>
      match skipWs r with
      | ':' :: r2 =>
        match parseVal fuel r2 with
        | some (v, r3) => some ((String.mk k, v), r3)
        | none => none
      | _ => none
    | none => none

/-- Parse the remainder of an object after a member: a `,`-separated list of
further members terminated by `}`. -/
def parseObjTail (fuel : Nat) (cs : List Char) :
    Option (List (String × Json) × List Char) :=
  match fuel with
  | 0 => none
  | fuel + 1 =>
    match skipWs cs with
    | '}' :: r => some ([], r)
    | ',' :: r =>
      match skipWs r with
      | '"' :: r2 =>
        match parseMember fuel r2 with
        | some (m, r3) =>
          match parseObjTail fuel r3 with
          | some (ms, r4) => some (m :: ms, r4)
          | none => none
        | none => none
      | _ => none
    | _ => none

end

/-- `json.loads`: parse one value, then require only whitespace to remain
("Extra data" is an error).  The fuel `2 * |s| + 4` is ample for any value
whose serialization fits in the input (proved below for `dumps` output). -/
def loads (s : String) : Option Json :=
  match parseVal (2 * s.data.length + 4) s.data with
  | some (v, rest) => if skipWs rest = [] then some v else none
  | none => none

example : loads "1" = some (Json.int 1) := rfl
example : loads "not json" = none := rfl
example : loads " [1, null, \"a\"] " = some (Json.arr [Json.int 1, Json.null, Json.str "a"]) := rfl
example : loads "-12" = some (Json.int (-12)) := rfl
example : loads "1.5" = none := rfl
example : loads "\"a\\nb\"" = some (Json.str "a\nb") := rfl

/-! ## The ingestion pipeline: `FileLoaderThread.run` (src/main.py 85-143) -/

/-- Characters removed by Python's `str.strip()` (ASCII whitespace). -/
def isPyWs (c : Char) : Bool :=
  c == ' ' || c == '\t' || c == '\n' || c == '\r' || c == '\x0b' || c == '\x0c'

/-- Python's `str.strip()`. -/
def pyStrip (s : String) : String :=
  String.mk (((s.data.dropWhile isPyWs).reverse.dropWhile isPyWs).reverse)

/-- The `stats` dictionary accumulated by `FileLoaderThread.run`:
`total_lines`, `valid_lines`, `error_lines`, `all_keys` (a set),
`key_counts` (a `Counter`) and `type_info` (a `defaultdict(Counter)`). -/
structure Stats where
  total_lines : Nat
  valid_lines : Nat
  error_lines : Nat
  all_keys : String → Bool
  key_counts : String → Nat
  type_info : String → String → Nat

/-- The empty statistics dictionary built at the top of `run`. -/
def initStats : Stats :=
  ⟨0, 0, 0, fun _ => false, fun _ => 0, fun _ _ => 0⟩

/-- `type(value).__name__` for a parsed JSON value. -/
def typeName : Json → String
  | .null => "NoneType"
  | .bool _ => "bool"
  | .int _ => "int"
  | .str _ => "str"
  | .arr _ => "list"
  | .obj _ => "dict"

/-- Schema aggregation for one object-valued record: add its keys to
`all_keys`, count each key once in `key_counts` (the code updates the
counter with the key *set*), and bump `type_info[key][type name]` once per
`(key, value)` item. -/
def observeSchema (st : Stats) (fields : List (String × Json)) : Stats :=
  { st with
    all_keys := fun k => st.all_keys k || fields.any (fun p => p.1 == k),
    key_counts := fun k =>
      st.key_counts k + (if fields.any (fun p => p.1 == k) then 1 else 0),
    type_info := fun k t =>
      st.type_info k t +
        (if fields.any (fun p => p.1 == k && typeName p.2 == t) then 1 else 0) }

/-- The signals emitted by `FileLoaderThread`: `progress(current, total)`,
`line_loaded(line_num, parsed, raw_line)`, `error_line(line_num, raw_line,
message)` and `finished(stats)`. -/
inductive Event where
  | progress (current : Nat) (total : Int) : Event
  | recordParsed (lineNum : Nat) (value : Json) (raw : String) : Event
  | parseFailed (lineNum : Nat) (raw : String) (msg : String) : Event
  | completed (stats : Stats) : Event

/-- The `max_lines` cutoff test `if self.max_lines and line_num > self.max_lines`,
with Python truthiness: `None` and `0` are falsy, so both mean "no limit". -/
def maxExceeded (maxL : Option Nat) (n : Nat) : Bool :=
  match maxL with
  | none => false
  | some m => !(m == 0) && decide (m < n)

/-- `self.progress.emit(line_num, -1)` at the end of each loop body whose
1-based line ordinal is a multiple of 100. -/
def maybeProgress (n : Nat) (evs : List Event) : List Event :=
  if n % 100 == 0 then Event.progress n (-1) :: evs else evs

/-- The per-line loop of `FileLoaderThread.run`.  `stop n` is the value the
cooperative `should_stop` flag has when it is checked at the top of the
iteration for file line `n`; `n` is the 1-based ordinal of the next line.
Returns the final statistics and the ordered list of per-line events
(`finished` is appended by `runLoader`).  The parse-error message carried by
Python's `JSONDecodeError` is abstracted as a constant. -/
def runLines (stop : Nat → Bool) (maxL : Option Nat) :
    List String → Nat → Stats → Stats × List Event
  | [], _, st => (st, [])
  | l :: ls, n, st =>
    if stop n then (st, [])
    else if maxExceeded maxL n then (st, [])
    else
      let line := pyStrip l
      if line == "" then runLines stop maxL ls (n + 1) st
      else
        let st1 := { st with total_lines := n }
        match loads line with
        | some v =>
          let st2 := { st1 with valid_lines := st1.valid_lines + 1 }
          let st3 :=
            match v with
            | Json.obj fields => observeSchema st2 fields
            | _ => st2
          let res := runLines stop maxL ls (n + 1) st3
          (res.1, Event.recordParsed n v line :: maybeProgress n res.2)
        | none =>
          let st2 := { st1 with error_lines := st1.error_lines + 1 }
          let res := runLines stop maxL ls (n + 1) st2
          (res.1, Event.parseFailed n line "JSONDecodeError" :: maybeProgress n res.2)

/-- One ingestion run of `FileLoaderThread.run`.  `openResult` is either the
sequence of lines the file iterator yields (without trailing newlines; the
code strips them anyway) or the exception message of a file-open failure,
which the outer `except` turns into `error_line(0, "", "File error: …")`.
`finished(stats)` is always emitted last, outside the `try`. -/
def runLoader (openResult : Except String (List String)) (stop : Nat → Bool)
    (maxL : Option Nat) : Stats × List Event :=
  match openResult with
  | .error msg =>
    (initStats,
      [Event.parseFailed 0 "" ("File error: " ++ msg), Event.completed initStats])
  | .ok lines =>
    let res := runLines stop maxL lines 1 initStats
    (res.1, res.2 ++ [Event.completed res.1])

/-- The records the viewer accumulates via `add_record`, in delivery
order. -/
structure LineRecord where
  line_num : Nat
  data : Json
  raw : String

/-- Extract the records delivered by `line_loaded` from an event list. -/
def recordsOf (evs : List Event) : List LineRecord :=
  evs.filterMap fun e =>
    match e with
    | .recordParsed n v raw => some ⟨n, v, raw⟩
    | _ => none

/-- Event classifiers used to state the temporal claims. -/
def isCompleted : Event → Bool
  | .completed _ => true
  | _ => false

def isProgress : Event → Bool
  | .progress _ _ => true
  | _ => false

def isRecordParsed : Event → Bool
  | .recordParsed _ _ _ => true
  | _ => false

def isLineParseFailed : Event → Bool
  | .parseFailed n _ _ => !(n == 0)
  | _ => false

def isFileFailed : Event → Bool
  | .parseFailed n _ _ => n == 0
  | _ => false

/-! ## The filter engine: `JSONLViewer.apply_filters` (src/main.py 555-597) -/

/-- Python's `str.lower()` (ASCII case folding; adequate for the claims). -/
def pyLower (s : String) : String := String.mk (s.data.map Char.toLower)

/-- Boolean list-prefix test. -/
def isPrefixB : List Char → List Char → Bool
  | [], _ => true
  | _ :: _, [] => false
  | a :: as, b :: bs => a == b && isPrefixB as bs

/-- Boolean contiguous-sublist test. -/
def isInfixB (needle : List Char) : List Char → Bool
  | [] => isPrefixB needle []
  | b :: bs => isPrefixB needle (b :: bs) || isInfixB needle bs

/-- Python's substring test `needle in haystack` on strings.  The empty
string is a substring of everything. -/
def pyInStr (needle haystack : String) : Bool :=
  isInfixB needle.data haystack.data

/-- Python's `in` operator as used by `field_filter not in record['data']`.
On a dict it is key membership, on a string substring containment, on a
list element membership; on other values it raises `TypeError`, modelled as
`none`. -/
def pyContains (v : Json) (key : String) : Option Bool :=
  match v with
  | .obj fs => some (fs.any (fun p => p.1 == key))
  | .str s => some (pyInStr key s)
  | .arr xs => some (xs.any (fun x => x == Json.str key))
  | _ => none

/-- `record['data'].get(field_filter, "")`: only dicts have `.get`; on any
other value Python raises `AttributeError`, modelled as `none`.  A missing
key yields the default `""`. -/
def pyGet (v : Json) (key : String) : Option Json :=
  match v with
  | .obj fs =>
    some (match fs.find? (fun p => p.1 == key) with
          | some p => p.2
          | none => Json.str "")
  | _ => none

mutual

/-- Python `repr` of a parsed JSON value, as used inside `str()` of
containers.  String quoting is modelled in the common single-quote form;
the exact repr of exotic strings is irrelevant to the claims. -/
def pyRepr : Json → String
  | .null => "None"
  | .bool true => "True"
  | .bool false => "False"
  | .int n => String.mk (intToChars n)
  | .str s => String.mk ('\'' :: (s.data ++ ['\'']))
  | .arr xs => String.mk ('[' :: pyReprList xs)
  | .obj fs => String.mk ('\x7b' :: pyReprFields fs)

def pyReprList : List Json → List Char
  | [] => [']']
  | [x] => (pyRepr x).data ++ [']']
  | x :: y :: t => (pyRepr x).data ++ (',' :: ' ' :: pyReprList (y :: t))

def pyReprFields : List (String × Json) → List Char
  | [] => ['\x7d']
  | [(k, v)] => (pyRepr (Json.str k)).data ++ (':' :: ' ' :: ((pyRepr v).data ++ ['\x7d']))
  | (k, v) :: f :: t =>
    (pyRepr (Json.str k)).data ++ (':' :: ' ' :: ((pyRepr v).data ++ (',' :: ' ' :: pyReprFields (f :: t))))

end

/-- Python `str()` of a parsed JSON value (`str(record['data'].get(...))`). -/
def pyStr : Json → String
  | .null => "None"
  | .bool true => "True"
  | .bool false => "False"
  | .int n => String.mk (intToChars n)
  | .str s => s
  | .arr xs => pyRepr (.arr xs)
  | .obj fs => pyRepr (.obj fs)

/-- The per-record match of the `apply_filters` loop body (src/main.py
576-597).  `matcher` is `pattern.search(·) is not None` for the compiled
regex (consulted only when `useRegex` is true and the search text is
non-empty, exactly when the code compiled one).  `none` models a Python
exception escaping the loop body (`TypeError` from `in` on a non-container,
`AttributeError` from `.get` on a non-dict). -/
def recordMatch (matcher : String → Bool) (useRegex : Bool)
    (searchText fieldFilter : String) (r : LineRecord) : Option Bool :=
  let m1 : Option Bool :=
    if fieldFilter == "All Fields" then some true
    else pyContains r.data fieldFilter
  match m1 with
  | none => none
  | some m =>
    if m && !(searchText == "") then
      let target : Option String :=
        if fieldFilter == "All Fields" then some r.raw
        else (pyGet r.data fieldFilter).map pyStr
      match target with
      | none => none
      | some t =>
        some (if useRegex then matcher t
              else pyInStr (pyLower searchText) (pyLower t))
    else some m

/-- The `for idx, record in enumerate(self.all_records)` loop, appending the
indices of matching records.  If the loop body raises (`pred` returns
`none`), the indices appended so far are kept (the list is mutated in
place) and the raised flag is set. -/
def filterLoop (pred : LineRecord → Option Bool) :
    Nat → List LineRecord → List Nat × Bool
  | _, [] => ([], false)
  | i, r :: rs =>
    match pred r with
    | none => ([], true)
    | some b =>
      let res := filterLoop pred (i + 1) rs
      (if b then i :: res.1 else res.1, res.2)

/-- The observable outcome of one `apply_filters` call: the resulting
`self.filtered_indices`, whether the "Invalid regex pattern" notice was
shown, and whether a Python exception escaped the loop. -/
structure FilterOutcome where
  filtered : List Nat
  invalidRegex : Bool
  raised : Bool
deriving Repr, DecidableEq

/-- `JSONLViewer.apply_filters` (src/main.py 555-597).  `compile` models
`re.compile(text, re.IGNORECASE)`: `none` on `re.error`, otherwise the
boolean `pattern.search` matcher.  `prev` is the value of
`self.filtered_indices` before the call; the code returns immediately when
no records are loaded, replaces the list with the full range when there is
no query, and otherwise *clears the list before compiling the regex*, so a
compile failure leaves it empty. -/
def apply_filters (compile : String → Option (String → Bool))
    (records : List LineRecord) (searchInput : String) (useRegex : Bool)
    (fieldFilter : String) (prev : List Nat) : FilterOutcome :=
  if records.isEmpty then ⟨prev, false, false⟩
  else
    let searchText := pyStrip searchInput
    if searchText == "" && fieldFilter == "All Fields" then
      ⟨List.range records.length, false, false⟩
    else if useRegex && !(searchText == "") then
      match compile searchText with
      | none => ⟨[], true, false⟩
      | some matcher =>
        let res := filterLoop (recordMatch matcher useRegex searchText fieldFilter) 0 records
        ⟨res.1, false, res.2⟩
    else
      let res := filterLoop (recordMatch (fun _ => false) useRegex searchText fieldFilter) 0 records
      ⟨res.1, false, res.2⟩

/-! ## Export: `JSONLViewer.export_filtered` (src/main.py 636-648) -/

/-- The lines written by `export_filtered`: one `json.dumps(record['data'],
ensure_ascii=False)` per filtered index, in order.  (Each line is written
with a trailing `'\n'`; since `dumps` output never contains a newline
(`dumpsL_no_newline`) — the written file's line sequence is exactly this list.) -/
def export_filtered (records : List LineRecord) (indices : List Nat) : List String :=
  indices.filterMap (fun i => (records.get? i).map (fun r => dumps r.data))

/-! ## Round-trip lemmas: characters and string escapes -/

theorem charToNatInj {a b : Char} (h : a.toNat = b.toNat) : a = b := by
  rw [← Char.ofNat_toNat a, ← Char.ofNat_toNat b, h]

theorem hexVal_hexChar {d : Nat} (h : d < 16) : hexVal (hexChar d) = some d := by
  interval_cases d <;> decide

theorem digitVal_digitChar {d : Nat} (h : d < 10) : digitVal (digitChar d) = some d := by
  interval_cases d <;> decide

theorem escapeL_nil : escapeL [] = [] := rfl

theorem escapeL_cons (c : Char) (cs : List Char) :
    escapeL (c :: cs) = escChar c ++ escapeL cs := by
  simp [escapeL]

theorem parseStrBody_quote (rest : List Char) :
    parseStrBody ('"' :: rest) = some ([], rest) := by
  rw [parseStrBody.eq_def]
  dsimp only
  rw [if_pos rfl]

theorem parseStrBody_escStep (e d : Char) (t : List Char)
    (he : escDecode e = some d) (hu : ¬ e = 'u') :
    parseStrBody ('\\' :: e :: t) =
      (match parseStrBody t with
       | some (s, rem) => some (d :: s, rem)
       | none => none) := by
  rw [parseStrBody.eq_def]
  dsimp only
  rw [if_neg (by decide : ¬ ('\\' : Char) = '"'), if_pos (rfl : ('\\' : Char) = '\\'),
    if_neg hu, he]

theorem parseStrBody_uStep (h3 h4 : Char) (a b : Nat) (t : List Char)
    (ha : hexVal h3 = some a) (hb : hexVal h4 = some b) :
    parseStrBody ('\\' :: 'u' :: '0' :: '0' :: h3 :: h4 :: t) =
      (match parseStrBody t with
       | some (s, rem) =>
         some (Char.ofNat (((0 * 16 + 0) * 16 + a) * 16 + b) :: s, rem)
       | none => none) := by
  rw [parseStrBody.eq_def]
  dsimp only
  rw [if_neg (by decide : ¬ ('\\' : Char) = '"'), if_pos (rfl : ('\\' : Char) = '\\'),
    if_pos (rfl : ('u' : Char) = 'u'),
    (by decide : hexVal '0' = some 0), ha, hb]

theorem parseStrBody_plain (c : Char) (t : List Char)
    (h1 : ¬ c = '"') (h2 : ¬ c = '\\') (h3 : ¬ c.toNat < 32) :
    parseStrBody (c :: t) =
      (match parseStrBody t with
       | some (s, rem) => some (c :: s, rem)
       | none => none) := by
  rw [parseStrBody.eq_def]
  dsimp only
  rw [if_neg h1, if_neg h2, if_neg h3]

theorem parseStrBody_escape (cs rest : List Char) :
    parseStrBody (escapeL cs ++ ('"' :: rest)) = some (cs, rest) := by
  induction cs with
  | nil => rw [escapeL_nil, List.nil_append, parseStrBody_quote]
  | cons c cs ih =>
    rw [escapeL_cons, List.append_assoc]
    by_cases h1 : c = '"'
    · subst h1
      rw [show escChar '"' = ['\\', '"'] from rfl]
      rw [List.cons_append, List.cons_append, List.nil_append,
        parseStrBody_escStep '"' '"' _ (by decide) (by decide), ih]
    by_cases h2 : c = '\\'
    · subst h2
      rw [show escChar '\\' = ['\\', '\\'] from rfl]
      rw [List.cons_append, List.cons_append, List.nil_append,
        parseStrBody_escStep '\\' '\\' _ (by decide) (by decide), ih]
    by_cases h3 : c = '\n'
    · subst h3
      rw [show escChar '\n' = ['\\', 'n'] from rfl]
      rw [List.cons_append, List.cons_append, List.nil_append,
        parseStrBody_escStep 'n' '\n' _ (by decide) (by decide), ih]
    by_cases h4 : c = '\t'
    · subst h4
      rw [show escChar '\t' = ['\\', 't'] from rfl]
      rw [List.cons_append, List.cons_append, List.nil_append,
        parseStrBody_escStep 't' '\t' _ (by decide) (by decide), ih]
    by_cases h5 : c = '\r'
    · subst h5
      rw [show escChar '\r' = ['\\', 'r'] from rfl]
      rw [List.cons_append, List.cons_append, List.nil_append,
        parseStrBody_escStep 'r' '\r' _ (by decide) (by decide), ih]
    by_cases h6 : c = '\x08'
    · subst h6
      rw [show escChar '\x08' = ['\\', 'b'] from rfl]
      rw [List.cons_append, List.cons_append, List.nil_append,
        parseStrBody_escStep 'b' '\x08' _ (by decide) (by decide), ih]
    by_cases h7 : c = '\x0c'
    · subst h7
      rw [show escChar '\x0c' = ['\\', 'f'] from rfl]
      rw [List.cons_append, List.cons_append, List.nil_append,
        parseStrBody_escStep 'f' '\x0c' _ (by decide) (by decide), ih]
    by_cases h8 : c.toNat < 32
    · have hesc : escChar c =
          ['\\', 'u', '0', '0', hexChar (c.toNat / 16), hexChar (c.toNat % 16)] := by
        simp only [escChar, if_neg h1, if_neg h2, if_neg h3, if_neg h4, if_neg h5,
          if_neg h6, if_neg h7, if_pos h8]
      have hchar : Char.ofNat (((0 * 16 + 0) * 16 + c.toNat / 16) * 16 + c.toNat % 16) = c := by
        have hv : ((0 * 16 + 0) * 16 + c.toNat / 16) * 16 + c.toNat % 16 = c.toNat := by omega
        rw [hv, Char.ofNat_toNat]
      rw [hesc]
      rw [List.cons_append, List.cons_append, List.cons_append, List.cons_append,
        List.cons_append, List.cons_append, List.nil_append,
        parseStrBody_uStep _ _ _ _ _ (hexVal_hexChar (by omega)) (hexVal_hexChar (by omega)),
        ih, hchar]
    · have hesc : escChar c = [c] := by
        simp only [escChar, if_neg h1, if_neg h2, if_neg h3, if_neg h4, if_neg h5,
          if_neg h6, if_neg h7, if_neg h8]
      rw [hesc, List.cons_append, List.nil_append,
        parseStrBody_plain c _ h1 h2 h8, ih]

/-! ## Round-trip lemmas: decimal numbers -/

theorem toDigitsRev_lt (fuel n : Nat) : ∀ d ∈ toDigitsRev fuel n, d < 10 := by
  induction fuel generalizing n with
  | zero => intro d hd; simp [toDigitsRev] at hd
  | succ fuel ih =>
    intro d hd
    rw [toDigitsRev] at hd
    by_cases h : n < 10
    · rw [if_pos h] at hd
      simp at hd
      omega
    · rw [if_neg h] at hd
      rcases List.mem_cons.mp hd with h1 | h1
      · omega
      · exact ih _ _ h1

theorem toDigitsRev_foldl (fuel n : Nat) (h : n < fuel) (acc : Nat) :
    (toDigitsRev fuel n).reverse.foldl (fun a d => a * 10 + d) acc =
      acc * 10 ^ (toDigitsRev fuel n).length + n := by
  induction fuel generalizing n acc with
  | zero => omega
  | succ fuel ih =>
    rw [toDigitsRev]
    by_cases hn : n < 10
    · rw [if_pos hn]; simp
    · rw [if_neg hn]
      have hrec : n / 10 < fuel := by omega
      rw [List.reverse_cons, List.foldl_append, ih _ hrec]
      simp only [List.foldl_cons, List.foldl_nil, List.length_cons]
      rw [pow_succ]
      have := Nat.div_add_mod n 10
      ring_nf
      omega

theorem parseDigits_map (ds : List Nat) (rest : List Char) (acc : Nat)
    (hds : ∀ d ∈ ds, d < 10)
    (hrest : match rest with | [] => True | c :: _ => digitVal c = none) :
    parseDigits acc (ds.map digitChar ++ rest) =
      (ds.foldl (fun a d => a * 10 + d) acc, rest) := by
  induction ds generalizing acc with
  | nil =>
    simp only [List.map_nil, List.nil_append, List.foldl_nil]
    match rest with
    | [] => rfl
    | c :: t =>
      rw [parseDigits]
      rw [show digitVal c = none from hrest]
  | cons d ds ih =>
    simp only [List.map_cons, List.cons_append, List.foldl_cons]
    rw [parseDigits, digitVal_digitChar (hds d (List.mem_cons_self d ds))]
    exact ih _ (fun x hx => hds x (List.mem_cons_of_mem d hx))

theorem toDigitsRev_leading (fuel : Nat) :
    ∀ m, 10 ≤ m → m < fuel →
      ∃ e es, (toDigitsRev fuel m).reverse = e :: es ∧ 1 ≤ e := by
  induction fuel with
  | zero => intro m h10 hlt; omega
  | succ fuel ih =>
    intro m h10 hlt
    rw [toDigitsRev, if_neg (by omega : ¬ m < 10), List.reverse_cons]
    by_cases hq : m / 10 < 10
    · obtain ⟨f, rfl⟩ : ∃ f, fuel = f + 1 := ⟨fuel - 1, by omega⟩
      rw [toDigitsRev, if_pos hq]
      exact ⟨m / 10, [m % 10], by simp, by omega⟩
    · obtain ⟨e, es, he, h1⟩ := ih (m / 10) (by omega) (by omega)
      rw [he]
      exact ⟨e, es ++ [m % 10], by simp, h1⟩

theorem natToChars_spec (n : Nat) :
    ∃ d ds, natToChars n = digitChar d :: (ds.map digitChar) ∧ d < 10 ∧
      (∀ x ∈ ds, x < 10) ∧ (d = 0 → n = 0 ∧ ds = []) ∧
      (d :: ds).foldl (fun a d => a * 10 + d) 0 = n := by
  have hlt : ∀ d ∈ toDigitsRev (n + 1) n, d < 10 := toDigitsRev_lt _ _
  have hfold := toDigitsRev_foldl (n + 1) n (by omega) 0
  rw [Nat.zero_mul, Nat.zero_add] at hfold
  have hne : (toDigitsRev (n + 1) n).reverse ≠ [] := by
    rw [toDigitsRev]
    by_cases h : n < 10
    · rw [if_pos h]; simp
    · rw [if_neg h]; simp
  obtain ⟨d, ds, hcons⟩ := List.exists_cons_of_ne_nil hne
  refine ⟨d, ds, ?_, ?_, ?_, ?_, ?_⟩
  · rw [natToChars, hcons, List.map_cons]
  · exact hlt d (by rw [← List.mem_reverse, hcons]; exact List.mem_cons_self _ _)
  · intro x hx
    exact hlt x (by rw [← List.mem_reverse, hcons]; exact List.mem_cons_of_mem _ hx)
  · intro hd0
    by_cases h : n < 10
    · have hsing : toDigitsRev (n + 1) n = [n] := by rw [toDigitsRev, if_pos h]
      rw [hsing] at hcons
      simp at hcons
      refine ⟨by omega, ?_⟩
      rw [← hcons.2]
    · exfalso
      obtain ⟨e, es, he, h1⟩ := toDigitsRev_leading (n + 1) n (by omega) (by omega)
      rw [he] at hcons
      cases hcons
      omega
  · rw [← hfold, hcons]

/-- The input after a number must not extend it: no digit, no fraction,
no exponent.  The delimiters that follow a value inside `dumps` output
(`,`, `]`, `}`, end of input) all satisfy this. -/
def numBoundary (rest : List Char) : Prop :=
  match rest with
  | [] => True
  | c :: _ => digitVal c = none ∧ ¬ c = '.' ∧ ¬ c = 'e' ∧ ¬ c = 'E'

theorem guardIntTail_boundary (v : Nat) (rest : List Char) (h : numBoundary rest) :
    guardIntTail v rest = some (v, rest) := by
  match rest with
  | [] => rfl
  | c :: t =>
    obtain ⟨-, h1, h2, h3⟩ := h
    rw [guardIntTail, if_neg (by tauto)]

theorem parseNumber_natToChars (n : Nat) (rest : List Char) (h : numBoundary rest) :
    parseNumber (natToChars n ++ rest) = some (n, rest) := by
  obtain ⟨d, ds, hcons, hd, hds, hzero, hfold⟩ := natToChars_spec n
  rw [hcons, List.cons_append]
  by_cases hd0 : d = 0
  · obtain ⟨hn0, hds0⟩ := hzero hd0
    subst hd0
    subst hds0
    rw [show digitChar 0 = '0' from rfl, List.map_nil, List.nil_append, parseNumber,
      if_pos rfl, guardIntTail_boundary _ _ h, hn0]
  · have hne : ¬ digitChar d = '0' := by
      interval_cases d <;> first | omega | decide
    rw [parseNumber, if_neg hne, digitVal_digitChar hd]
    dsimp only
    rw [parseDigits_map ds rest d hds (by
      match rest, h with
      | [], _ => trivial
      | c :: t, hh => exact hh.1)]
    dsimp only
    rw [guardIntTail_boundary _ _ h]
    simp only [List.foldl_cons] at hfold
    have hstep : (0 : Nat) * 10 + d = d := by omega
    rw [hstep] at hfold
    rw [hfold]

/-! ## Step lemmas for the fueled parser -/

theorem skipWs_cons_neg {c : Char} (t : List Char) (h : isJsonWs c = false) :
    skipWs (c :: t) = c :: t := by
  simp [skipWs, List.dropWhile_cons, h]

theorem skipWs_cons_pos {c : Char} (t : List Char) (h : isJsonWs c = true) :
    skipWs (c :: t) = skipWs t := by
  simp [skipWs, List.dropWhile_cons, h]

theorem parseVal_null (f : Nat) (t : List Char) :
    parseVal (f + 1) ('n' :: 'u' :: 'l' :: 'l' :: t) = some (.null, t) := by
  rw [parseVal.eq_def]
  dsimp only
  rw [skipWs_cons_neg _ (by decide)]
  dsimp only
  rw [if_pos (by decide : (('n' : Char) == 'n') = true)]
  split
  · rename_i r heq
    cases heq
    rfl
  · rename_i hno
    exact absurd rfl (hno t)

theorem parseVal_true (f : Nat) (t : List Char) :
    parseVal (f + 1) ('t' :: 'r' :: 'u' :: 'e' :: t) = some (.bool true, t) := by
  rw [parseVal.eq_def]
  dsimp only
  rw [skipWs_cons_neg _ (by decide)]
  dsimp only
  rw [if_neg (by decide : ¬ (('t' : Char) == 'n') = true),
    if_pos (by decide : (('t' : Char) == 't') = true)]
  split
  · rename_i r heq
    cases heq
    rfl
  · rename_i hno
    exact absurd rfl (hno t)

theorem parseVal_false (f : Nat) (t : List Char) :
    parseVal (f + 1) ('f' :: 'a' :: 'l' :: 's' :: 'e' :: t) = some (.bool false, t) := by
  rw [parseVal.eq_def]
  dsimp only
  rw [skipWs_cons_neg _ (by decide)]
  dsimp only
  rw [if_neg (by decide : ¬ (('f' : Char) == 'n') = true),
    if_neg (by decide : ¬ (('f' : Char) == 't') = true),
    if_pos (by decide : (('f' : Char) == 'f') = true)]
  split
  · rename_i r heq
    cases heq
    rfl
  · rename_i hno
    exact absurd rfl (hno t)

theorem parseVal_str (f : Nat) (t : List Char) :
    parseVal (f + 1) ('"' :: t) =
      (match parseStrBody t with
       | some (s, r) => some (.str (String.mk s), r)
       | none => none) := by
  rw [parseVal.eq_def]
  dsimp only
  rw [skipWs_cons_neg _ (by decide)]
  dsimp only
  rw [if_neg (by decide : ¬ (('"' : Char) == 'n') = true),
    if_neg (by decide : ¬ (('"' : Char) == 't') = true),
    if_neg (by decide : ¬ (('"' : Char) == 'f') = true),
    if_pos (by decide : (('"' : Char) == '"') = true)]

theorem parseVal_arr (f : Nat) (t : List Char) :
    parseVal (f + 1) ('[' :: t) = parseArrBody f (skipWs t) := by
  rw [parseVal.eq_def]
  dsimp only
  rw [skipWs_cons_neg _ (by decide)]
  dsimp only
  rw [if_neg (by decide : ¬ (('[' : Char) == 'n') = true),
    if_neg (by decide : ¬ (('[' : Char) == 't') = true),
    if_neg (by decide : ¬ (('[' : Char) == 'f') = true),
    if_neg (by decide : ¬ (('[' : Char) == '"') = true),
    if_pos (by decide : (('[' : Char) == '[') = true)]

theorem parseVal_obj (f : Nat) (t : List Char) :
    parseVal (f + 1) ('{' :: t) = parseObjBody f (skipWs t) := by
  rw [parseVal.eq_def]
  dsimp only
  rw [skipWs_cons_neg _ (by decide)]
  dsimp only
  rw [if_neg (by decide : ¬ (('{' : Char) == 'n') = true),
    if_neg (by decide : ¬ (('{' : Char) == 't') = true),
    if_neg (by decide : ¬ (('{' : Char) == 'f') = true),
    if_neg (by decide : ¬ (('{' : Char) == '"') = true),
    if_neg (by decide : ¬ (('{' : Char) == '[') = true),
    if_pos (by decide : (('{' : Char) == '{') = true)]

theorem parseVal_neg (f : Nat) (t : List Char) :
    parseVal (f + 1) ('-' :: t) =
      (match parseNumber t with
       | some (m, r) => some (.int (-(m : Int)), r)
       | none => none) := by
  rw [parseVal.eq_def]
  dsimp only
  rw [skipWs_cons_neg _ (by decide)]
  dsimp only
  rw [if_neg (by decide : ¬ (('-' : Char) == 'n') = true),
    if_neg (by decide : ¬ (('-' : Char) == 't') = true),
    if_neg (by decide : ¬ (('-' : Char) == 'f') = true),
    if_neg (by decide : ¬ (('-' : Char) == '"') = true),
    if_neg (by decide : ¬ (('-' : Char) == '[') = true),
    if_neg (by decide : ¬ (('-' : Char) == '{') = true),
    if_pos (by decide : (('-' : Char) == '-') = true)]

theorem parseVal_other (f : Nat) (c : Char) (t : List Char)
    (hws : isJsonWs c = false)
    (h1 : (c == 'n') = false) (h2 : (c == 't') = false) (h3 : (c == 'f') = false)
    (h4 : (c == '"') = false) (h5 : (c == '[') = false) (h6 : (c == '{') = false)
    (h7 : (c == '-') = false) :
    parseVal (f + 1) (c :: t) =
      (match parseNumber (c :: t) with
       | some (m, r) => some (.int (m : Int), r)
       | none => none) := by
  rw [parseVal.eq_def]
  dsimp only
  rw [skipWs_cons_neg _ hws]
  dsimp only
  rw [if_neg (by simp [h1]), if_neg (by simp [h2]), if_neg (by simp [h3]),
    if_neg (by simp [h4]), if_neg (by simp [h5]), if_neg (by simp [h6]),
    if_neg (by simp [h7])]

theorem parseArrBody_nil (f : Nat) (t : List Char) :
    parseArrBody (f + 1) (']' :: t) = some (.arr [], t) := by
  rw [parseArrBody.eq_def]
  dsimp only
  split
  · rename_i r heq
    cases heq
    rfl
  · rename_i hno
    exact absurd rfl (hno t)

theorem parseArrBody_cons (f : Nat) (c : Char) (t : List Char) (h : ¬ c = ']') :
    parseArrBody (f + 1) (c :: t) =
      (match parseVal f (c :: t) with
       | some (x, r) =>
         (match parseArrTail f r with
          | some (xs, r2) => some (.arr (x :: xs), r2)
          | none => none)
       | none => none) := by
  rw [parseArrBody.eq_def]
  dsimp only
  split
  · rename_i r heq
    cases heq
    exact absurd rfl h
  · rfl

theorem parseArrTail_close (f : Nat) (t : List Char) :
    parseArrTail (f + 1) (']' :: t) = some ([], t) := by
  rw [parseArrTail.eq_def]
  dsimp only
  rw [skipWs_cons_neg _ (by decide)]
  split
  · rename_i r heq
    cases heq
    rfl
  · rename_i r heq
    cases heq
  · rename_i hno _
    exact absurd rfl (hno t)

theorem parseArrTail_comma (f : Nat) (t : List Char) :
    parseArrTail (f + 1) (',' :: t) =
      (match parseVal f t with
       | some (x, r2) =>
         (match parseArrTail f r2 with
          | some (xs, r3) => some (x :: xs, r3)
          | none => none)
       | none => none) := by
  rw [parseArrTail.eq_def]
  dsimp only
  rw [skipWs_cons_neg _ (by decide)]
  split
  · rename_i r heq
    cases heq
  · rename_i r heq
    cases heq
    rfl
  · rename_i _ hno
    exact absurd rfl (hno t)

theorem parseObjBody_nil (f : Nat) (t : List Char) :
    parseObjBody (f + 1) ('}' :: t) = some (.obj [], t) := by
  rw [parseObjBody.eq_def]
  dsimp only
  split
  · rename_i r heq
    cases heq
    rfl
  · rename_i r heq
    cases heq
  · rename_i hno _
    exact absurd rfl (hno t)

theorem parseObjBody_cons (f : Nat) (t : List Char) :
    parseObjBody (f + 1) ('"' :: t) =
      (match parseMember f t with
       | some (m, r2) =>
         (match parseObjTail f r2 with
          | some (ms, r3) => some (.obj (mkDict (m :: ms)), r3)
          | none => none)
       | none => none) := by
  rw [parseObjBody.eq_def]
  dsimp only
  split
  · rename_i r heq
    cases heq
  · rename_i r heq
    cases heq
    rfl
  · rename_i _ hno
    exact absurd rfl (hno t)

theorem parseObjTail_close (f : Nat) (t : List Char) :
    parseObjTail (f + 1) ('}' :: t) = some ([], t) := by
  rw [parseObjTail.eq_def]
  dsimp only
  rw [skipWs_cons_neg _ (by decide)]
  split
  · rename_i r heq
    cases heq
    rfl
  · rename_i r heq
    cases heq
  · rename_i hno _
    exact absurd rfl (hno t)

theorem parseObjTail_comma (f : Nat) (t : List Char) :
    parseObjTail (f + 1) (',' :: t) =
      (match skipWs t with
       | '"' :: r2 =>
         (match parseMember f r2 with
          | some (m, r3) =>
            (match parseObjTail f r3 with
             | some (ms, r4) => some (m :: ms, r4)
             | none => none)
          | none => none)
       | _ => none) := by
  rw [parseObjTail.eq_def]
  dsimp only
  rw [skipWs_cons_neg _ (by decide)]
  split
  · rename_i r heq
    cases heq
  · rename_i r heq
    cases heq
    rfl
  · rename_i _ hno
    exact absurd rfl (hno t)

theorem parseMember_eq (f : Nat) (t : List Char) :
    parseMember (f + 1) t =
      (match parseStrBody t with
       | some (k, r) =>
         (match skipWs r with
          | ':' :: r2 =>
            (match parseVal f r2 with
             | some (v, r3) => some ((String.mk k, v), r3)
             | none => none)
          | _ => none)
       | none => none) := by
  rw [parseMember.eq_def]

theorem parseVal_space (f : Nat) (cs : List Char) :
    parseVal (f + 1) (' ' :: cs) = parseVal (f + 1) cs := by
  conv_lhs => rw [parseVal.eq_def]
  conv_rhs => rw [parseVal.eq_def]
  dsimp only
  rw [skipWs_cons_pos _ (by decide)]

/-! ## Fuel bounds and auxiliary facts about `dumps` output -/

mutual

/-- A sufficient parser fuel for re-reading the serialization of a value. -/
def jfuel : Json → Nat
  | .null => 1
  | .bool _ => 1
  | .int _ => 1
  | .str _ => 1
  | .arr xs => 2 + jfuelArr xs
  | .obj fs => 2 + jfuelObj fs

def jfuelArr : List Json → Nat
  | [] => 0
  | x :: xs => 2 + jfuel x + jfuelArr xs

def jfuelObj : List (String × Json) → Nat
  | [] => 0
  | (_, v) :: fs => 4 + jfuel v + jfuelObj fs

end

theorem jfuel_pos (v : Json) : 1 ≤ jfuel v := by
  cases v <;> simp only [jfuel] <;> omega

/-- What may legally follow a complete value inside `dumps` output: nothing,
or a separator/closer. -/
def goodRest (rest : List Char) : Prop :=
  match rest with
  | [] => True
  | c :: _ => c = ',' ∨ c = ']' ∨ c = '}'

theorem goodRest_numBoundary (rest : List Char) (h : goodRest rest) :
    numBoundary rest := by
  match rest with
  | [] => trivial
  | c :: t =>
    rcases h with h | h | h <;> subst h <;> exact ⟨by decide, by decide, by decide, by decide⟩

theorem goodRest_dumpsArrTail (xs : List Json) (rest : List Char) :
    goodRest (dumpsArrTail xs ++ rest) := by
  cases xs with
  | nil => simp [dumpsArrTail, goodRest]
  | cons x t => simp [dumpsArrTail, goodRest]

theorem goodRest_dumpsObjTail (fs : List (String × Json)) (rest : List Char) :
    goodRest (dumpsObjTail fs ++ rest) := by
  cases fs with
  | nil => simp [dumpsObjTail, goodRest]
  | cons f t => simp [dumpsObjTail, goodRest]

theorem digitChar_guard (d : Nat) :
    isJsonWs (digitChar d) = false ∧ (digitChar d == 'n') = false ∧
    (digitChar d == 't') = false ∧ (digitChar d == 'f') = false ∧
    (digitChar d == '"') = false ∧ (digitChar d == '[') = false ∧
    (digitChar d == '{') = false ∧ (digitChar d == '-') = false ∧
    ¬ digitChar d = ']' ∧ ¬ digitChar d = '}' := by
  unfold digitChar
  split <;> exact ⟨by decide, by decide, by decide, by decide, by decide,
    by decide, by decide, by decide, by decide, by decide⟩

theorem stringMkData (s : String) : String.mk s.data = s := rfl

/-- `dumps` output starts with a known non-whitespace, non-closer
character. -/
theorem dumpsL_head (v : Json) :
    ∃ c t, dumpsL v = c :: t ∧ isJsonWs c = false ∧ ¬ c = ']' := by
  cases v with
  | null => exact ⟨'n', ['u', 'l', 'l'], by simp [dumpsL], by decide, by decide⟩
  | bool b =>
    cases b with
    | true => exact ⟨'t', ['r', 'u', 'e'], by simp [dumpsL], by decide, by decide⟩
    | false => exact ⟨'f', ['a', 'l', 's', 'e'], by simp [dumpsL], by decide, by decide⟩
  | int n =>
    by_cases hneg : n < 0
    · exact ⟨'-', natToChars n.natAbs,
        by simp [dumpsL, intToChars, if_pos hneg], by decide, by decide⟩
    · obtain ⟨d, ds, hcons, -, -, -, -⟩ := natToChars_spec n.toNat
      obtain ⟨hws, -, -, -, -, -, -, -, hbr, -⟩ := digitChar_guard d
      exact ⟨digitChar d, List.map digitChar ds,
        by simp [dumpsL, intToChars, if_neg hneg, hcons], hws, hbr⟩
  | str s => exact ⟨'"', escapeL s.data ++ ['"'], by simp [dumpsL], by decide, by decide⟩
  | arr xs =>
    cases xs with
    | nil => exact ⟨'[', [']'], by simp [dumpsL], by decide, by decide⟩
    | cons x t =>
      exact ⟨'[', dumpsL x ++ dumpsArrTail t, by simp [dumpsL], by decide, by decide⟩
  | obj fs =>
    cases fs with
    | nil => exact ⟨'{', ['}'], by simp [dumpsL], by decide, by decide⟩
    | cons f t =>
      exact ⟨'{', dumpsMember f ++ dumpsObjTail t, by simp [dumpsL], by decide, by decide⟩

theorem skipWs_dumpsL (v : Json) (rest : List Char) :
    skipWs (dumpsL v ++ rest) = dumpsL v ++ rest := by
  obtain ⟨c, t, hcons, hws, -⟩ := dumpsL_head v
  rw [hcons, List.cons_append, skipWs_cons_neg _ hws]

/-! ## `mkDict` restores a duplicate-free member list unchanged -/

theorem insertKey_append (acc : List (String × Json)) (k : String) (v : Json)
    (h : ∀ q ∈ acc, ¬ q.1 = k) : insertKey acc k v = acc ++ [(k, v)] := by
  induction acc with
  | nil => rfl
  | cons q rest ih =>
    obtain ⟨k0, v0⟩ := q
    rw [insertKey, if_neg (by
      intro hbeq
      exact h (k0, v0) (List.mem_cons_self _ _) (by simpa using hbeq))]
    rw [List.cons_append, ih (fun q hq => h q (List.mem_cons_of_mem _ hq))]

theorem foldl_insertKey (fs : List (String × Json)) :
    ∀ acc, keysDistinct fs = true →
      (∀ p ∈ fs, ∀ q ∈ acc, ¬ q.1 = p.1) →
      fs.foldl (fun acc m => insertKey acc m.1 m.2) acc = acc ++ fs := by
  induction fs with
  | nil => intro acc _ _; simp
  | cons m t ih =>
    intro acc hdist hdisj
    obtain ⟨k, v⟩ := m
    have hdist' : keysDistinct t = true := by
      simp [keysDistinct] at hdist
      exact hdist.2
    have hknot : ∀ p ∈ t, ¬ p.1 = k := by
      simp [keysDistinct] at hdist
      intro p hp
      exact fun he => (by simpa [he] using hdist.1 p.1 p.2 hp)
    rw [List.foldl_cons]
    rw [insertKey_append acc k v (fun q hq => hdisj (k, v) (List.mem_cons_self _ _) q hq)]
    rw [ih (acc ++ [(k, v)]) hdist' (by
      intro p hp q hq
      rcases List.mem_append.mp hq with hq | hq
      · exact hdisj p (List.mem_cons_of_mem _ hp) q hq
      · rcases List.mem_singleton.mp hq with rfl
        exact fun he => hknot p hp (by simpa using he.symm))]
    simp

theorem mkDict_self (fs : List (String × Json)) (h : keysDistinct fs = true) :
    mkDict fs = fs := by
  rw [mkDict, foldl_insertKey fs [] h (by intro p _ q hq; cases hq)]
  simp

theorem parseVal_int (f : Nat) (n : Int) (rest : List Char) (h : numBoundary rest) :
    parseVal (f + 1) (intToChars n ++ rest) = some (.int n, rest) := by
  by_cases hneg : n < 0
  · rw [intToChars, if_pos hneg, List.cons_append, parseVal_neg,
      parseNumber_natToChars n.natAbs rest h]
    dsimp only
    have : -(n.natAbs : Int) = n := by omega
    rw [this]
  · rw [intToChars, if_neg hneg]
    obtain ⟨d, ds, hcons, -, -, -, -⟩ := natToChars_spec n.toNat
    obtain ⟨hws, h1, h2, h3, h4, h5, h6, h7, -, -⟩ := digitChar_guard d
    rw [hcons, List.cons_append, parseVal_other f _ _ hws h1 h2 h3 h4 h5 h6 h7,
      ← List.cons_append, ← hcons, parseNumber_natToChars _ _ h]
    dsimp only
    have : (n.toNat : Int) = n := by omega
    rw [this]

theorem parseMember_step (f : Nat) (k : List Char) (t : List Char) :
    parseMember (f + 1) (escapeL k ++ ('"' :: ':' :: ' ' :: t)) =
      (match parseVal f (' ' :: t) with
       | some (v, r3) => some ((String.mk k, v), r3)
       | none => none) := by
  rw [parseMember_eq, parseStrBody_escape]
  dsimp only
  rw [skipWs_cons_neg _ (by decide)]
  split
  · rename_i r heq
    cases heq
    rfl
  · rename_i hno
    exact absurd rfl (hno (' ' :: t))

/-- The serializer/parser round trip, proved for all four mutual parsing
entry points simultaneously by strong induction on the fuel bound. -/
theorem parse_dumps_mutual (N : Nat) :
    (∀ v : Json, jfuel v ≤ N → Json.wfB v = true → ∀ fuel rest, jfuel v ≤ fuel →
       goodRest rest → parseVal fuel (dumpsL v ++ rest) = some (v, rest)) ∧
    (∀ xs : List Json, 1 + jfuelArr xs ≤ N → Json.wfListB xs = true → ∀ fuel rest,
       1 + jfuelArr xs ≤ fuel → goodRest rest →
       parseArrTail fuel (dumpsArrTail xs ++ rest) = some (xs, rest)) ∧
    (∀ (k : String) (v : Json), 1 + jfuel v ≤ N → Json.wfB v = true → ∀ fuel rest,
       1 + jfuel v ≤ fuel → goodRest rest →
       parseMember fuel (escapeL k.data ++ ('"' :: ':' :: ' ' :: (dumpsL v ++ rest))) =
         some ((k, v), rest)) ∧
    (∀ fs : List (String × Json), 1 + jfuelObj fs ≤ N → Json.wfFieldsB fs = true →
       ∀ fuel rest, 1 + jfuelObj fs ≤ fuel → goodRest rest →
       parseObjTail fuel (dumpsObjTail fs ++ rest) = some (fs, rest)) := by
  induction N using Nat.strong_induction_on with
  | _ N IH =>
    refine ⟨?_, ?_, ?_, ?_⟩
    · intro v hN hwf fuel rest hfuel hrest
      cases v with
      | null =>
        simp only [jfuel] at hfuel
        obtain ⟨f, rfl⟩ : ∃ f, fuel = f + 1 := ⟨fuel - 1, by omega⟩
        simp only [dumpsL, List.cons_append, List.nil_append]
        exact parseVal_null f rest
      | bool b =>
        simp only [jfuel] at hfuel
        obtain ⟨f, rfl⟩ : ∃ f, fuel = f + 1 := ⟨fuel - 1, by omega⟩
        cases b with
        | true =>
          simp only [dumpsL, List.cons_append, List.nil_append]
          exact parseVal_true f rest
        | false =>
          simp only [dumpsL, List.cons_append, List.nil_append]
          exact parseVal_false f rest
      | int n =>
        simp only [jfuel] at hfuel
        obtain ⟨f, rfl⟩ : ∃ f, fuel = f + 1 := ⟨fuel - 1, by omega⟩
        simp only [dumpsL]
        exact parseVal_int f n rest (goodRest_numBoundary rest hrest)
      | str s =>
        simp only [jfuel] at hfuel
        obtain ⟨f, rfl⟩ : ∃ f, fuel = f + 1 := ⟨fuel - 1, by omega⟩
        simp only [dumpsL, List.cons_append, List.append_assoc, List.singleton_append]
        rw [parseVal_str, parseStrBody_escape]
        rfl
      | arr xs =>
        cases xs with
        | nil =>
          simp only [jfuel, jfuelArr] at hfuel
          obtain ⟨g, rfl⟩ : ∃ g, fuel = g + 2 := ⟨fuel - 2, by omega⟩
          simp only [dumpsL, List.cons_append, List.nil_append]
          rw [parseVal_arr, skipWs_cons_neg _ (by decide)]
          exact parseArrBody_nil g rest
        | cons x xs =>
          simp only [jfuel, jfuelArr] at hfuel hN
          simp only [Json.wfB, Json.wfListB, Bool.and_eq_true] at hwf
          obtain ⟨g, rfl⟩ : ∃ g, fuel = g + 2 := ⟨fuel - 2, by omega⟩
          simp only [dumpsL, List.cons_append, List.append_assoc]
          rw [parseVal_arr, skipWs_dumpsL]
          obtain ⟨c, t, hc, hws, hbr⟩ := dumpsL_head x
          rw [hc, List.cons_append, parseArrBody_cons _ _ _ hbr,
            ← List.cons_append, ← hc]
          rw [(IH (jfuel x) (by omega)).1 x le_rfl hwf.1 g
            (dumpsArrTail xs ++ rest) (by omega) (goodRest_dumpsArrTail xs rest)]
          dsimp only
          rw [(IH (1 + jfuelArr xs) (by omega)).2.1 xs le_rfl hwf.2 g rest
            (by omega) hrest]
      | obj fs =>
        cases fs with
        | nil =>
          simp only [jfuel, jfuelObj] at hfuel
          obtain ⟨g, rfl⟩ : ∃ g, fuel = g + 2 := ⟨fuel - 2, by omega⟩
          simp only [dumpsL, List.cons_append, List.nil_append]
          rw [parseVal_obj, skipWs_cons_neg _ (by decide)]
          exact parseObjBody_nil g rest
        | cons m fs =>
          obtain ⟨k, v⟩ := m
          simp only [jfuel, jfuelObj] at hfuel hN
          simp only [Json.wfB, Bool.and_eq_true] at hwf
          obtain ⟨hdist, hfields⟩ := hwf
          simp only [Json.wfFieldsB, Bool.and_eq_true] at hfields
          obtain ⟨hwfv, hwffs⟩ := hfields
          obtain ⟨g, rfl⟩ : ∃ g, fuel = g + 4 := ⟨fuel - 4, by omega⟩
          simp only [dumpsL, dumpsMember, List.cons_append, List.append_assoc]
          rw [show g + 4 = (g + 3) + 1 from rfl, parseVal_obj,
            skipWs_cons_neg _ (by decide),
            show g + 3 = (g + 2) + 1 from rfl, parseObjBody_cons,
            show g + 2 = (g + 1) + 1 from rfl, parseMember_step, parseVal_space]
          rw [(IH (jfuel v) (by omega)).1 v le_rfl hwfv (g + 1)
            (dumpsObjTail fs ++ rest) (by omega) (goodRest_dumpsObjTail fs rest)]
          dsimp only
          rw [(IH (1 + jfuelObj fs) (by omega)).2.2.2 fs le_rfl hwffs (g + 2) rest
            (by omega) hrest]
          dsimp only
          rw [mkDict_self _ hdist]
    · intro xs hN hwf fuel rest hfuel hrest
      cases xs with
      | nil =>
        obtain ⟨f, rfl⟩ : ∃ f, fuel = f + 1 := ⟨fuel - 1, by omega⟩
        simp only [dumpsArrTail, List.cons_append, List.nil_append]
        exact parseArrTail_close f rest
      | cons x t =>
        simp only [jfuelArr] at hN hfuel
        simp only [Json.wfListB, Bool.and_eq_true] at hwf
        obtain ⟨h2, rfl⟩ : ∃ h2, fuel = h2 + 2 := ⟨fuel - 2, by omega⟩
        simp only [dumpsArrTail, List.cons_append, List.append_assoc]
        rw [show h2 + 2 = (h2 + 1) + 1 from rfl, parseArrTail_comma, parseVal_space]
        rw [(IH (jfuel x) (by omega)).1 x le_rfl hwf.1 (h2 + 1)
          (dumpsArrTail t ++ rest) (by omega) (goodRest_dumpsArrTail t rest)]
        dsimp only
        rw [(IH (1 + jfuelArr t) (by omega)).2.1 t le_rfl hwf.2 (h2 + 1) rest
          (by omega) hrest]
    · intro k v hN hwf fuel rest hfuel hrest
      have hp := jfuel_pos v
      obtain ⟨m, rfl⟩ : ∃ m, fuel = m + 2 := ⟨fuel - 2, by omega⟩
      rw [show m + 2 = (m + 1) + 1 from rfl, parseMember_step, parseVal_space]
      rw [(IH (jfuel v) (by omega)).1 v le_rfl hwf (m + 1) rest (by omega) hrest]
    · intro fs hN hwf fuel rest hfuel hrest
      cases fs with
      | nil =>
        obtain ⟨f, rfl⟩ : ∃ f, fuel = f + 1 := ⟨fuel - 1, by omega⟩
        simp only [dumpsObjTail, List.cons_append, List.nil_append]
        exact parseObjTail_close f rest
      | cons m t =>
        obtain ⟨k, v⟩ := m
        simp only [jfuelObj] at hN hfuel
        simp only [Json.wfFieldsB, Bool.and_eq_true] at hwf
        obtain ⟨h2, rfl⟩ : ∃ h2, fuel = h2 + 3 := ⟨fuel - 3, by omega⟩
        simp only [dumpsObjTail, dumpsMember, List.cons_append, List.append_assoc]
        rw [show h2 + 3 = (h2 + 2) + 1 from rfl, parseObjTail_comma,
          skipWs_cons_pos _ (by decide), skipWs_cons_neg _ (by decide)]
        split
        · rename_i r2 heq
          injection heq with heq1 heq2
          subst heq2
          rw [show h2 + 2 = (h2 + 1) + 1 from rfl, parseMember_step, parseVal_space]
          rw [(IH (jfuel v) (by omega)).1 v le_rfl hwf.1 (h2 + 1)
            (dumpsObjTail t ++ rest) (by omega) (goodRest_dumpsObjTail t rest)]
          dsimp only
          rw [(IH (1 + jfuelObj t) (by omega)).2.2.2 t le_rfl hwf.2 (h2 + 2) rest
            (by omega) hrest]
        · rename_i hno
          exact absurd rfl (hno _)

/-! ## Parser output is well-formed (Python dicts have no duplicate keys) -/

theorem insertKey_any_key (fs : List (String × Json)) (k : String) (v : Json)
    (k0 : String) :
    ((insertKey fs k v).any (fun p => p.1 == k0)) =
      (fs.any (fun p => p.1 == k0) || (k == k0)) := by
  induction fs with
  | nil => simp [insertKey]
  | cons q rest ih =>
    obtain ⟨k1, v1⟩ := q
    by_cases h : (k1 == k) = true
    · have hk : k1 = k := by simpa using h
      subst hk
      rw [insertKey, if_pos h]
      simp only [List.any_cons]
      by_cases h0 : (k1 == k0) = true
      · simp [h0]
      · simp only [Bool.not_eq_true] at h0
        simp [h0]
    · simp only [Bool.not_eq_true] at h
      rw [insertKey, if_neg (by simp [h])]
      simp only [List.any_cons, ih]
      by_cases h0 : (k1 == k0) = true <;> simp_all [Bool.or_assoc]

theorem insertKey_keysDistinct (fs : List (String × Json)) (k : String) (v : Json)
    (h : keysDistinct fs = true) : keysDistinct (insertKey fs k v) = true := by
  induction fs with
  | nil => simp [insertKey, keysDistinct]
  | cons q rest ih =>
    obtain ⟨k1, v1⟩ := q
    simp only [keysDistinct, Bool.and_eq_true, Bool.not_eq_true'] at h
    by_cases hk : (k1 == k) = true
    · rw [insertKey, if_pos hk]
      simp only [keysDistinct, Bool.and_eq_true, Bool.not_eq_true']
      exact h
    · simp only [Bool.not_eq_true] at hk
      rw [insertKey, if_neg (by simp [hk])]
      simp only [keysDistinct, Bool.and_eq_true, Bool.not_eq_true']
      constructor
      · rw [insertKey_any_key]
        simp only [Bool.or_eq_false_iff]
        exact ⟨h.1, by simpa using fun he => (by simp [he] at hk)⟩
      · exact ih h.2

theorem insertKey_wfFields (fs : List (String × Json)) (k : String) (v : Json)
    (hfs : Json.wfFieldsB fs = true) (hv : Json.wfB v = true) :
    Json.wfFieldsB (insertKey fs k v) = true := by
  induction fs with
  | nil => simp [insertKey, Json.wfFieldsB, hv]
  | cons q rest ih =>
    obtain ⟨k1, v1⟩ := q
    simp only [Json.wfFieldsB, Bool.and_eq_true] at hfs
    by_cases hk : (k1 == k) = true
    · rw [insertKey, if_pos hk]
      simp only [Json.wfFieldsB, Bool.and_eq_true]
      exact ⟨hv, hfs.2⟩
    · rw [insertKey, if_neg hk]
      simp only [Json.wfFieldsB, Bool.and_eq_true]
      exact ⟨hfs.1, ih hfs.2⟩

theorem mkDict_wf (ms : List (String × Json)) (h : Json.wfFieldsB ms = true) :
    keysDistinct (mkDict ms) = true ∧ Json.wfFieldsB (mkDict ms) = true := by
  rw [mkDict]
  have main : ∀ (l : List (String × Json)) (acc : List (String × Json)),
      Json.wfFieldsB l = true → keysDistinct acc = true → Json.wfFieldsB acc = true →
      keysDistinct (l.foldl (fun acc m => insertKey acc m.1 m.2) acc) = true ∧
      Json.wfFieldsB (l.foldl (fun acc m => insertKey acc m.1 m.2) acc) = true := by
    intro l
    induction l with
    | nil => intro acc _ h1 h2; exact ⟨h1, h2⟩
    | cons m t ih =>
      intro acc hl h1 h2
      obtain ⟨k, v⟩ := m
      simp only [Json.wfFieldsB, Bool.and_eq_true] at hl
      rw [List.foldl_cons]
      exact ih _ hl.2 (insertKey_keysDistinct _ _ _ h1) (insertKey_wfFields _ _ _ h2 hl.1)
  exact main ms [] h (by rfl) (by rfl)

/-- Every value any of the parser entry points returns is well-formed. -/
theorem parse_wf (fuel : Nat) :
    (∀ cs v r, parseVal fuel cs = some (v, r) → Json.wfB v = true) ∧
    (∀ cs v r, parseArrBody fuel cs = some (v, r) → Json.wfB v = true) ∧
    (∀ cs xs r, parseArrTail fuel cs = some (xs, r) → Json.wfListB xs = true) ∧
    (∀ cs v r, parseObjBody fuel cs = some (v, r) → Json.wfB v = true) ∧
    (∀ cs m r, parseMember fuel cs = some (m, r) → Json.wfB m.2 = true) ∧
    (∀ cs ms r, parseObjTail fuel cs = some (ms, r) → Json.wfFieldsB ms = true) := by
  induction fuel with
  | zero =>
    refine ⟨?_, ?_, ?_, ?_, ?_, ?_⟩ <;>
      (intro cs a r h; rw [show (0 : Nat) = 0 from rfl] at h) <;>
      first
      | (rw [parseVal.eq_def] at h; exact absurd h (by simp))
      | (rw [parseArrBody.eq_def] at h; exact absurd h (by simp))
      | (rw [parseArrTail.eq_def] at h; exact absurd h (by simp))
      | (rw [parseObjBody.eq_def] at h; exact absurd h (by simp))
      | (rw [parseMember.eq_def] at h; exact absurd h (by simp))
      | (rw [parseObjTail.eq_def] at h; exact absurd h (by simp))
  | succ fuel ih =>
    obtain ⟨ihV, ihAB, ihAT, ihOB, ihM, ihOT⟩ := ih
    refine ⟨?_, ?_, ?_, ?_, ?_, ?_⟩
    · intro cs v r h
      rw [parseVal.eq_def] at h
      dsimp only at h
      split at h
      · exact absurd h (by simp)
      · split at h
        · split at h
          · injection h with h1
            injection h1 with h2 h3
            subst h2
            rfl
          · exact absurd h (by simp)
        · split at h
          · split at h
            · injection h with h1
              injection h1 with h2 h3
              subst h2
              rfl
            · exact absurd h (by simp)
          · split at h
            · split at h
              · injection h with h1
                injection h1 with h2 h3
                subst h2
                rfl
              · exact absurd h (by simp)
            · split at h
              · split at h
                · rename_i heq
                  injection h with h1
                  injection h1 with h2 h3
                  subst h2
                  rfl
                · exact absurd h (by simp)
              · split at h
                · exact ihAB _ _ _ h
                · split at h
                  · exact ihOB _ _ _ h
                  · split at h
                    · split at h
                      · injection h with h1
                        injection h1 with h2 h3
                        subst h2
                        rfl
                      · exact absurd h (by simp)
                    · split at h
                      · injection h with h1
                        injection h1 with h2 h3
                        subst h2
                        rfl
                      · exact absurd h (by simp)
    · intro cs v r h
      rw [parseArrBody.eq_def] at h
      dsimp only at h
      split at h
      · injection h with h1
        injection h1 with h2 h3
        subst h2
        rfl
      · split at h
        · split at h
          · injection h with h1
            injection h1 with h2 h3
            subst h2
            simp only [Json.wfB, Json.wfListB, Bool.and_eq_true]
            exact ⟨ihV _ _ _ (by assumption), ihAT _ _ _ (by assumption)⟩
          · exact absurd h (by simp)
        · exact absurd h (by simp)
    · intro cs xs r h
      rw [parseArrTail.eq_def] at h
      dsimp only at h
      split at h
      · injection h with h1
        injection h1 with h2 h3
        subst h2
        rfl
      · split at h
        · split at h
          · injection h with h1
            injection h1 with h2 h3
            subst h2
            simp only [Json.wfListB, Bool.and_eq_true]
            exact ⟨ihV _ _ _ (by assumption), ihAT _ _ _ (by assumption)⟩
          · exact absurd h (by simp)
        · exact absurd h (by simp)
      · exact absurd h (by simp)
    · intro cs v r h
      rw [parseObjBody.eq_def] at h
      dsimp only at h
      split at h
      · injection h with h1
        injection h1 with h2 h3
        subst h2
        rfl
      · split at h
        · rename_i oM m r2 hM
          split at h
          · rename_i oT ms r3 hT
            injection h with h1
            injection h1 with h2 h3
            subst h2
            simp only [Json.wfB, Bool.and_eq_true]
            exact mkDict_wf (m :: ms) (by
              simp only [Json.wfFieldsB, Bool.and_eq_true]
              exact ⟨ihM _ _ _ hM, ihOT _ _ _ hT⟩)
          · exact absurd h (by simp)
        · exact absurd h (by simp)
      · exact absurd h (by simp)
    · intro cs m r h
      rw [parseMember.eq_def] at h
      dsimp only at h
      split at h
      · split at h
        · split at h
          · injection h with h1
            injection h1 with h2 h3
            subst h2
            exact ihV _ _ _ (by assumption)
          · exact absurd h (by simp)
        · exact absurd h (by simp)
      · exact absurd h (by simp)
    · intro cs ms r h
      rw [parseObjTail.eq_def] at h
      dsimp only at h
      split at h
      · injection h with h1
        injection h1 with h2 h3
        subst h2
        rfl
      · split at h
        · split at h
          · split at h
            · injection h with h1
              injection h1 with h2 h3
              subst h2
              simp only [Json.wfFieldsB, Bool.and_eq_true]
              exact ⟨ihM _ _ _ (by assumption), ihOT _ _ _ (by assumption)⟩
            · exact absurd h (by simp)
          · exact absurd h (by simp)
        · exact absurd h (by simp)
      · exact absurd h (by simp)

/-! ## `loads ∘ dumps = id` on well-formed values -/

theorem jfuel_le_mutual (N : Nat) :
    (∀ v : Json, jfuel v ≤ N → jfuel v ≤ 2 * (dumpsL v).length + 2) ∧
    (∀ xs : List Json, jfuelArr xs ≤ N → jfuelArr xs + 2 ≤ 2 * (dumpsArrTail xs).length) ∧
    (∀ fs : List (String × Json), jfuelObj fs ≤ N →
      jfuelObj fs + 2 ≤ 2 * (dumpsObjTail fs).length) := by
  induction N using Nat.strong_induction_on with
  | _ N IH =>
    refine ⟨?_, ?_, ?_⟩
    · intro v hN
      cases v with
      | null => simp [jfuel, dumpsL]
      | bool b => cases b <;> simp [jfuel, dumpsL]
      | int n => simp [jfuel, dumpsL]
      | str s => simp [jfuel, dumpsL]
      | arr xs =>
        cases xs with
        | nil => simp [jfuel, jfuelArr, dumpsL]
        | cons x t =>
          simp only [jfuel, jfuelArr] at hN ⊢
          have hx := (IH (jfuel x) (by omega)).1 x le_rfl
          have ht := (IH (jfuelArr t) (by omega)).2.1 t le_rfl
          simp only [dumpsL, List.length_cons, List.length_append]
          omega
      | obj fs =>
        cases fs with
        | nil => simp [jfuel, jfuelObj, dumpsL]
        | cons m t =>
          obtain ⟨k, v⟩ := m
          simp only [jfuel, jfuelObj] at hN ⊢
          have hv := (IH (jfuel v) (by omega)).1 v le_rfl
          have ht := (IH (jfuelObj t) (by omega)).2.2 t le_rfl
          simp only [dumpsL, dumpsMember, List.length_cons, List.length_append]
          omega
    · intro xs hN
      cases xs with
      | nil => simp [jfuelArr, dumpsArrTail]
      | cons x t =>
        simp only [jfuelArr] at hN ⊢
        have hx := (IH (jfuel x) (by omega)).1 x le_rfl
        have ht := (IH (jfuelArr t) (by omega)).2.1 t le_rfl
        simp only [dumpsArrTail, List.length_cons, List.length_append]
        omega
    · intro fs hN
      cases fs with
      | nil => simp [jfuelObj, dumpsObjTail]
      | cons m t =>
        obtain ⟨k, v⟩ := m
        simp only [jfuelObj] at hN ⊢
        have hv := (IH (jfuel v) (by omega)).1 v le_rfl
        have ht := (IH (jfuelObj t) (by omega)).2.2 t le_rfl
        simp only [dumpsObjTail, dumpsMember, List.length_cons, List.length_append]
        omega

theorem jfuel_le (v : Json) : jfuel v ≤ 2 * (dumpsL v).length + 2 :=
  (jfuel_le_mutual (jfuel v)).1 v le_rfl

/-- The round trip at the `loads`/`dumps` level: re-parsing the
serialization of any well-formed value gives the value back. -/
theorem loads_dumps (v : Json) (h : Json.wfB v = true) : loads (dumps v) = some v := by
  have hdata : (dumps v).data = dumpsL v := rfl
  rw [loads, hdata]
  have := (parse_dumps_mutual (jfuel v)).1 v le_rfl h
    (2 * (dumpsL v).length + 4) [] (by have := jfuel_le v; omega) trivial
  rw [List.append_nil] at this
  rw [this]
  rfl

/-- Everything `loads` accepts is well-formed. -/
theorem loads_wf (s : String) (v : Json) (h : loads s = some v) :
    Json.wfB v = true := by
  rw [loads] at h
  split at h
  · rename_i p hp
    split at h
    · injection h with h1
      subst h1
      exact (parse_wf _).1 _ _ _ hp
    · exact absurd h (by simp)
  · exact absurd h (by simp)

/-! ## `dumps` output survives `str.strip()` unchanged and is never blank -/

theorem digitChar_py (d : Nat) : isPyWs (digitChar d) = false := by
  unfold digitChar
  split <;> decide

theorem dumpsL_head_py (v : Json) :
    ∃ c t, dumpsL v = c :: t ∧ isPyWs c = false := by
  obtain ⟨c, t, hcons, hws, hbr⟩ := dumpsL_head v
  refine ⟨c, t, hcons, ?_⟩
  cases v with
  | null => rw [show dumpsL Json.null = ['n', 'u', 'l', 'l'] from by simp [dumpsL]] at hcons; cases hcons; decide
  | bool b =>
    cases b with
    | true => rw [show dumpsL (Json.bool true) = ['t', 'r', 'u', 'e'] from by simp [dumpsL]] at hcons; cases hcons; decide
    | false => rw [show dumpsL (Json.bool false) = ['f', 'a', 'l', 's', 'e'] from by simp [dumpsL]] at hcons; cases hcons; decide
  | int n =>
    by_cases hneg : n < 0
    · rw [show dumpsL (Json.int n) = '-' :: natToChars n.natAbs from by
        simp [dumpsL, intToChars, if_pos hneg]] at hcons
      cases hcons; decide
    · obtain ⟨d, ds, hnat, -, -, -, -⟩ := natToChars_spec n.toNat
      rw [show dumpsL (Json.int n) = natToChars n.toNat from by
        simp [dumpsL, intToChars, if_neg hneg], hnat] at hcons
      cases hcons
      exact digitChar_py d
  | str s =>
    rw [show dumpsL (Json.str s) = '"' :: (escapeL s.data ++ ['"']) from by simp [dumpsL]] at hcons
    cases hcons; decide
  | arr xs =>
    cases xs with
    | nil => rw [show dumpsL (Json.arr []) = ['[', ']'] from by simp [dumpsL]] at hcons; cases hcons; decide
    | cons x t2 =>
      rw [show dumpsL (Json.arr (x :: t2)) = '[' :: (dumpsL x ++ dumpsArrTail t2) from by
        simp [dumpsL]] at hcons
      cases hcons; decide
  | obj fs =>
    cases fs with
    | nil => rw [show dumpsL (Json.obj []) = ['{', '}'] from by simp [dumpsL]] at hcons; cases hcons; decide
    | cons f t2 =>
      rw [show dumpsL (Json.obj (f :: t2)) = '{' :: (dumpsMember f ++ dumpsObjTail t2) from by
        simp [dumpsL]] at hcons
      cases hcons; decide

theorem dumpsArrTail_last (xs : List Json) :
    ∃ t, dumpsArrTail xs = t ++ [']'] := by
  induction xs with
  | nil => exact ⟨[], rfl⟩
  | cons x t2 ih =>
    obtain ⟨t, ht⟩ := ih
    exact ⟨',' :: ' ' :: (dumpsL x ++ t), by simp [dumpsArrTail, ht]⟩

theorem dumpsObjTail_last (fs : List (String × Json)) :
    ∃ t, dumpsObjTail fs = t ++ ['}'] := by
  induction fs with
  | nil => exact ⟨[], rfl⟩
  | cons f t2 ih =>
    obtain ⟨t, ht⟩ := ih
    exact ⟨',' :: ' ' :: (dumpsMember f ++ t), by simp [dumpsObjTail, ht]⟩

theorem natToChars_last (n : Nat) :
    ∃ t d, natToChars n = t ++ [digitChar d] := by
  obtain ⟨d, ds, hcons, -, -, -, -⟩ := natToChars_spec n
  rcases List.eq_nil_or_concat ds with h | ⟨L, b, h⟩
  · subst h
    exact ⟨[], d, by simpa using hcons⟩
  · subst h
    refine ⟨digitChar d :: L.map digitChar, b, ?_⟩
    rw [hcons]
    simp [List.concat_eq_append]

theorem dumpsL_last (v : Json) :
    ∃ t c, dumpsL v = t ++ [c] ∧ isPyWs c = false := by
  cases v with
  | null => exact ⟨['n', 'u', 'l'], 'l', by simp [dumpsL], by decide⟩
  | bool b =>
    cases b with
    | true => exact ⟨['t', 'r', 'u'], 'e', by simp [dumpsL], by decide⟩
    | false => exact ⟨['f', 'a', 'l', 's'], 'e', by simp [dumpsL], by decide⟩
  | int n =>
    by_cases hneg : n < 0
    · obtain ⟨t, d, ht⟩ := natToChars_last n.natAbs
      exact ⟨'-' :: t, digitChar d,
        by simp [dumpsL, intToChars, if_pos hneg, ht], digitChar_py d⟩
    · obtain ⟨t, d, ht⟩ := natToChars_last n.toNat
      exact ⟨t, digitChar d,
        by simp [dumpsL, intToChars, if_neg hneg, ht], digitChar_py d⟩
  | str s =>
    exact ⟨'"' :: escapeL s.data, '"', by simp [dumpsL], by decide⟩
  | arr xs =>
    cases xs with
    | nil => exact ⟨['['], ']', by simp [dumpsL], by decide⟩
    | cons x t2 =>
      obtain ⟨t, ht⟩ := dumpsArrTail_last t2
      exact ⟨'[' :: (dumpsL x ++ t), ']', by simp [dumpsL, ht], by decide⟩
  | obj fs =>
    cases fs with
    | nil => exact ⟨['{'], '}', by simp [dumpsL], by decide⟩
    | cons f t2 =>
      obtain ⟨t, ht⟩ := dumpsObjTail_last t2
      exact ⟨'{' :: (dumpsMember f ++ t), '}', by simp [dumpsL, ht], by decide⟩

theorem pyStrip_eq_self (s : String)
    (h1 : ∃ c t, s.data = c :: t ∧ isPyWs c = false)
    (h2 : ∃ t c, s.data = t ++ [c] ∧ isPyWs c = false) : pyStrip s = s := by
  obtain ⟨c, t, hcons, hc⟩ := h1
  obtain ⟨u, d, hconc, hd⟩ := h2
  rw [pyStrip, hcons, List.dropWhile_cons, if_neg (by simp [hc]), ← hcons, hconc]
  rw [show (u ++ [d]).reverse = d :: u.reverse from by simp,
    List.dropWhile_cons, if_neg (by simp [hd]),
    show (d :: u.reverse).reverse = u ++ [d] from by simp, ← hconc]

theorem pyStrip_dumps (v : Json) : pyStrip (dumps v) = dumps v :=
  pyStrip_eq_self (dumps v) (dumpsL_head_py v) (dumpsL_last v)

theorem dumps_ne_empty (v : Json) : (dumps v == "") = false := by
  obtain ⟨c, t, hcons, -⟩ := dumpsL_head_py v
  have : (dumps v).data = c :: t := hcons
  rw [beq_eq_false_iff_ne]
  intro h
  rw [h] at this
  cases this

/-! ## Properties of the ingestion loop -/

theorem countP_maybeProgress (p : Event → Bool) (n : Nat) (evs : List Event)
    (hp : ∀ m t, p (Event.progress m t) = false) :
    (maybeProgress n evs).countP p = evs.countP p := by
  rw [maybeProgress]
  by_cases h : (n % 100 == 0) = true
  · rw [if_pos h, List.countP_cons, hp]
    simp
  · rw [if_neg h]

/-- The statistics counters track the emitted events exactly: `valid_lines`
counts `line_loaded` emissions, `error_lines` counts per-line `error_line`
emissions; the loop itself emits no `finished` and no sentinel
(line 0) `error_line`. -/
theorem runLines_counts (stop : Nat → Bool) (maxL : Option Nat) :
    ∀ (ls : List String) (n : Nat) (st : Stats), 1 ≤ n →
      (runLines stop maxL ls n st).1.valid_lines =
        st.valid_lines + (runLines stop maxL ls n st).2.countP isRecordParsed ∧
      (runLines stop maxL ls n st).1.error_lines =
        st.error_lines + (runLines stop maxL ls n st).2.countP isLineParseFailed ∧
      (runLines stop maxL ls n st).2.countP isCompleted = 0 ∧
      (runLines stop maxL ls n st).2.countP isFileFailed = 0 := by
  intro ls
  induction ls with
  | nil => intro n st hn; simp [runLines]
  | cons l t ih =>
    intro n st hn
    rw [runLines]
    by_cases hstop : stop n = true
    · rw [if_pos hstop]; simp
    · rw [if_neg hstop]
      by_cases hmax : maxExceeded maxL n = true
      · rw [if_pos hmax]; simp
      · rw [if_neg hmax]
        by_cases hblank : (pyStrip l == "") = true
        · rw [if_pos hblank]
          exact ih (n + 1) st (by omega)
        · rw [if_neg hblank]
          split
          · rename_i v hv
            dsimp only
            refine ⟨?_, ?_, ?_, ?_⟩
            · rw [List.countP_cons, countP_maybeProgress _ _ _ (fun m t => rfl),
                (ih (n + 1) _ (by omega)).1,
                show isRecordParsed (Event.recordParsed n v (pyStrip l)) = true from rfl]
              cases v <;> simp [observeSchema] <;> omega
            · rw [List.countP_cons, countP_maybeProgress _ _ _ (fun m t => rfl),
                (ih (n + 1) _ (by omega)).2.1,
                show isLineParseFailed (Event.recordParsed n v (pyStrip l)) = false from rfl]
              cases v <;> simp [observeSchema]
            · rw [List.countP_cons, countP_maybeProgress _ _ _ (fun m t => rfl),
                (ih (n + 1) _ (by omega)).2.2.1,
                show isCompleted (Event.recordParsed n v (pyStrip l)) = false from rfl]
              simp
            · rw [List.countP_cons, countP_maybeProgress _ _ _ (fun m t => rfl),
                (ih (n + 1) _ (by omega)).2.2.2,
                show isFileFailed (Event.recordParsed n v (pyStrip l)) = false from rfl]
              simp
          · dsimp only
            refine ⟨?_, ?_, ?_, ?_⟩
            · rw [List.countP_cons, countP_maybeProgress _ _ _ (fun m t => rfl),
                (ih (n + 1) _ (by omega)).1,
                show isRecordParsed (Event.parseFailed n (pyStrip l) "JSONDecodeError") = false from rfl]
              simp
            · rw [List.countP_cons, countP_maybeProgress _ _ _ (fun m t => rfl),
                (ih (n + 1) _ (by omega)).2.1,
                show isLineParseFailed (Event.parseFailed n (pyStrip l) "JSONDecodeError") = true from by
                  simp [isLineParseFailed]
                  omega]
              simp
              omega
            · rw [List.countP_cons, countP_maybeProgress _ _ _ (fun m t => rfl),
                (ih (n + 1) _ (by omega)).2.2.1,
                show isCompleted (Event.parseFailed n (pyStrip l) "JSONDecodeError") = false from rfl]
              simp
            · rw [List.countP_cons, countP_maybeProgress _ _ _ (fun m t => rfl),
                (ih (n + 1) _ (by omega)).2.2.2,
                show isFileFailed (Event.parseFailed n (pyStrip l) "JSONDecodeError") = false from by
                  simp [isFileFailed]
                  omega]
              simp

/-- With no blank lines among the remaining input, the running invariant
`total_lines = valid_lines + error_lines` is maintained to the end of the
run (file ordinals stay contiguous). -/
theorem runLines_total (stop : Nat → Bool) (maxL : Option Nat) :
    ∀ (ls : List String) (n : Nat) (st : Stats), (∀ l ∈ ls, ¬ pyStrip l = "") →
      st.total_lines + 1 = n → st.valid_lines + st.error_lines + 1 = n →
      (runLines stop maxL ls n st).1.total_lines =
        (runLines stop maxL ls n st).1.valid_lines +
          (runLines stop maxL ls n st).1.error_lines := by
  intro ls
  induction ls with
  | nil => intro n st hbl h1 h2; simp [runLines]; omega
  | cons l t ih =>
    intro n st hbl h1 h2
    rw [runLines]
    by_cases hstop : stop n = true
    · rw [if_pos hstop]; dsimp only; omega
    · rw [if_neg hstop]
      by_cases hmax : maxExceeded maxL n = true
      · rw [if_pos hmax]; dsimp only; omega
      · rw [if_neg hmax]
        have hnb : ¬ (pyStrip l == "") = true := by
          simp only [beq_iff_eq]
          exact hbl l (List.mem_cons_self _ _)
        rw [if_neg hnb]
        split
        · rename_i v hv
          dsimp only
          cases v <;> dsimp only <;>
            (apply ih (n + 1) <;>
              first
                | exact fun l2 hl2 => hbl l2 (List.mem_cons_of_mem _ hl2)
                | (simp [observeSchema]; omega)
                | simp [observeSchema])
        · dsimp only
          apply ih (n + 1) <;>
            first
              | exact fun l2 hl2 => hbl l2 (List.mem_cons_of_mem _ hl2)
              | (simp; omega)
              | simp

/-! ## The schema-aggregation invariant (C5) -/

/-- The closed set of type tags `type(value).__name__` can produce for a
parsed JSON value in this model. -/
def tagList : List String := ["NoneType", "bool", "int", "str", "list", "dict"]

/-- The total of a field's type histogram over the closed tag set. -/
def histSum (st : Stats) (k : String) : Nat := (tagList.map (st.type_info k)).sum

theorem sum_map_add {α : Type} (l : List α) (f g : α → Nat) :
    (l.map (fun t => f t + g t)).sum = (l.map f).sum + (l.map g).sum := by
  induction l with
  | nil => simp
  | cons a t ih => simp [ih]; omega

theorem any_key_of_any_type (fields : List (String × Json)) (k t : String)
    (h : fields.any (fun p => p.1 == k && typeName p.2 == t) = true) :
    fields.any (fun p => p.1 == k) = true := by
  rw [List.any_eq_true] at h ⊢
  obtain ⟨p, hp, hc⟩ := h
  rw [Bool.and_eq_true] at hc
  exact ⟨p, hp, hc.1⟩

theorem typeName_tag_sum (v : Json) :
    (tagList.map (fun t => if (typeName v == t) = true then 1 else 0)).sum = 1 := by
  cases v <;> rfl

theorem any_type_sum (k : String) (fields : List (String × Json))
    (hdist : keysDistinct fields = true) :
    (tagList.map (fun t =>
      if fields.any (fun p => p.1 == k && typeName p.2 == t) = true then 1 else 0)).sum =
      if fields.any (fun p => p.1 == k) = true then 1 else 0 := by
  induction fields with
  | nil => rfl
  | cons q rest ih =>
    obtain ⟨k1, v1⟩ := q
    simp only [keysDistinct, Bool.and_eq_true, Bool.not_eq_true'] at hdist
    obtain ⟨hnot, hdist'⟩ := hdist
    by_cases hk : (k1 == k) = true
    · have hk' : k1 = k := by simpa using hk
      subst hk'
      have hrest : ∀ f : String × Json → Bool,
          (∀ p : String × Json, f p = true → (p.1 == k1) = true) →
          rest.any f = false := by
        intro f hf
        rw [List.any_eq_false]
        intro p hp hfp
        have := hf p hfp
        rw [List.any_eq_false] at hnot
        exact hnot p hp this
      have hhead : ∀ t, ((k1, v1) :: rest).any
          (fun p => p.1 == k1 && typeName p.2 == t) = (typeName v1 == t) := by
        intro t
        rw [List.any_cons]
        rw [hrest _ (fun p hp => (Bool.and_eq_true _ _ |>.mp hp).1)]
        simp [hk]
      simp only [hhead]
      rw [show ((k1, v1) :: rest).any (fun p => p.1 == k1) = true from by
        simp [List.any_cons, hk]]
      rw [if_pos rfl]
      exact typeName_tag_sum v1
    · have hhead : ∀ t, ((k1, v1) :: rest).any
          (fun p => p.1 == k && typeName p.2 == t) =
            rest.any (fun p => p.1 == k && typeName p.2 == t) := by
        intro t
        rw [List.any_cons]
        simp only [Bool.not_eq_true] at hk
        simp [hk]
      have hhead2 : ((k1, v1) :: rest).any (fun p => p.1 == k) =
          rest.any (fun p => p.1 == k) := by
        rw [List.any_cons]
        simp only [Bool.not_eq_true] at hk
        simp [hk]
      simp only [hhead, hhead2]
      exact ih hdist'

theorem observe_key_counts (st : Stats) (fields : List (String × Json)) (k : String) :
    (observeSchema st fields).key_counts k =
      st.key_counts k + (if fields.any (fun p => p.1 == k) = true then 1 else 0) := rfl

theorem observe_valid (st : Stats) (fields : List (String × Json)) :
    (observeSchema st fields).valid_lines = st.valid_lines := rfl

theorem observe_histSum (st : Stats) (fields : List (String × Json)) (k : String)
    (hdist : keysDistinct fields = true) :
    histSum (observeSchema st fields) k =
      histSum st k + (if fields.any (fun p => p.1 == k) = true then 1 else 0) := by
  rw [histSum, histSum]
  rw [show (tagList.map ((observeSchema st fields).type_info k)) =
      tagList.map (fun t => st.type_info k t +
        (if fields.any (fun p => p.1 == k && typeName p.2 == t) = true then 1 else 0)) from rfl]
  rw [sum_map_add, any_type_sum k fields hdist]

/-- The schema invariant of §3: at every state the ingestion loop reaches,
every field's count is bounded by `valid_lines` and equals the total of its
type histogram. -/
theorem runLines_schema (stop : Nat → Bool) (maxL : Option Nat) :
    ∀ (ls : List String) (n : Nat) (st : Stats),
      (∀ k, st.key_counts k ≤ st.valid_lines ∧ histSum st k = st.key_counts k) →
      ∀ k, (runLines stop maxL ls n st).1.key_counts k ≤
             (runLines stop maxL ls n st).1.valid_lines ∧
           histSum (runLines stop maxL ls n st).1 k =
             (runLines stop maxL ls n st).1.key_counts k := by
  intro ls
  induction ls with
  | nil => intro n st hinv k; simpa [runLines] using hinv k
  | cons l t ih =>
    intro n st hinv k
    rw [runLines]
    by_cases hstop : stop n = true
    · rw [if_pos hstop]; exact hinv k
    · rw [if_neg hstop]
      by_cases hmax : maxExceeded maxL n = true
      · rw [if_pos hmax]; exact hinv k
      · rw [if_neg hmax]
        by_cases hblank : (pyStrip l == "") = true
        · rw [if_pos hblank]
          exact ih (n + 1) st hinv k
        · rw [if_neg hblank]
          split
          · rename_i v hv
            dsimp only
            cases v with
            | obj fields =>
              dsimp only
              apply ih (n + 1)
              intro k2
              have hdist : keysDistinct fields = true := by
                have hwf := loads_wf _ _ hv
                simp only [Json.wfB, Bool.and_eq_true] at hwf
                exact hwf.1
              have h2 := (hinv k2).1
              have h3 := (hinv k2).2
              constructor
              · rw [observe_key_counts, observe_valid]
                show st.key_counts k2 + _ ≤ st.valid_lines + 1
                split <;> omega
              · rw [observe_histSum _ _ _ hdist, observe_key_counts]
                show histSum st k2 + _ = st.key_counts k2 + _
                omega
            | null =>
              dsimp only
              apply ih (n + 1)
              intro k2
              refine ⟨?_, ?_⟩
              · show st.key_counts k2 ≤ st.valid_lines + 1
                have := (hinv k2).1
                omega
              · show histSum st k2 = st.key_counts k2
                exact (hinv k2).2
            | bool b =>
              dsimp only
              apply ih (n + 1)
              intro k2
              refine ⟨?_, ?_⟩
              · show st.key_counts k2 ≤ st.valid_lines + 1
                have := (hinv k2).1
                omega
              · show histSum st k2 = st.key_counts k2
                exact (hinv k2).2
            | int m =>
              dsimp only
              apply ih (n + 1)
              intro k2
              refine ⟨?_, ?_⟩
              · show st.key_counts k2 ≤ st.valid_lines + 1
                have := (hinv k2).1
                omega
              · show histSum st k2 = st.key_counts k2
                exact (hinv k2).2
            | str s =>
              dsimp only
              apply ih (n + 1)
              intro k2
              refine ⟨?_, ?_⟩
              · show st.key_counts k2 ≤ st.valid_lines + 1
                have := (hinv k2).1
                omega
              · show histSum st k2 = st.key_counts k2
                exact (hinv k2).2
            | arr xs =>
              dsimp only
              apply ih (n + 1)
              intro k2
              refine ⟨?_, ?_⟩
              · show st.key_counts k2 ≤ st.valid_lines + 1
                have := (hinv k2).1
                omega
              · show histSum st k2 = st.key_counts k2
                exact (hinv k2).2
          · dsimp only
            apply ih (n + 1)
            intro k2
            refine ⟨?_, ?_⟩
            · show st.key_counts k2 ≤ st.valid_lines
              exact (hinv k2).1
            · show histSum st k2 = st.key_counts k2
              exact (hinv k2).2

/-! ## Progress cadence (C9) -/

theorem mem_maybeProgress (ev : Event) (n : Nat) (evs : List Event) :
    ev ∈ maybeProgress n evs ↔
      (n % 100 = 0 ∧ ev = Event.progress n (-1)) ∨ ev ∈ evs := by
  rw [maybeProgress]
  by_cases h : (n % 100 == 0) = true
  · rw [if_pos h]
    have hn : n % 100 = 0 := by simpa using h
    simp [List.mem_cons, hn]
  · rw [if_neg h]
    have hn : ¬ n % 100 = 0 := by simpa using h
    simp [hn]

/-- A `progress` event is emitted exactly when a non-blank line whose file
ordinal is divisible by 100 was processed — regardless of whether the line
parsed; the cadence is keyed to the file ordinal, not to the number of
successfully processed lines. -/
theorem runLines_progress (stop : Nat → Bool) (maxL : Option Nat) :
    ∀ (ls : List String) (n : Nat) (st : Stats) (m : Nat),
      Event.progress m (-1) ∈ (runLines stop maxL ls n st).2 ↔
        (m % 100 = 0 ∧
          ((∃ v raw, Event.recordParsed m v raw ∈ (runLines stop maxL ls n st).2) ∨
           (∃ raw msg, Event.parseFailed m raw msg ∈ (runLines stop maxL ls n st).2))) := by
  intro ls
  induction ls with
  | nil => intro n st m; simp [runLines]
  | cons l t ih =>
    intro n st m
    rw [runLines]
    by_cases hstop : stop n = true
    · rw [if_pos hstop]; simp
    · rw [if_neg hstop]
      by_cases hmax : maxExceeded maxL n = true
      · rw [if_pos hmax]; simp
      · rw [if_neg hmax]
        by_cases hblank : (pyStrip l == "") = true
        · rw [if_pos hblank]
          exact ih (n + 1) st m
        · rw [if_neg hblank]
          split
          · rename_i v hv
            dsimp only
            constructor
            · intro hmem
              rcases List.mem_cons.mp hmem with h | h
              · exact absurd h (by simp)
              · rcases (mem_maybeProgress _ _ _).mp h with ⟨hn, hev⟩ | h2
                · injection hev with hm ht
                  subst hm
                  exact ⟨hn, Or.inl ⟨v, pyStrip l, List.mem_cons_self _ _⟩⟩
                · obtain ⟨hm, hwit⟩ := (ih (n + 1) _ m).mp h2
                  refine ⟨hm, ?_⟩
                  rcases hwit with ⟨v2, raw2, hw⟩ | ⟨raw2, msg2, hw⟩
                  · exact Or.inl ⟨v2, raw2, List.mem_cons_of_mem _
                      ((mem_maybeProgress _ _ _).mpr (Or.inr hw))⟩
                  · exact Or.inr ⟨raw2, msg2, List.mem_cons_of_mem _
                      ((mem_maybeProgress _ _ _).mpr (Or.inr hw))⟩
            · rintro ⟨hm, hwit⟩
              rcases hwit with ⟨v2, raw2, hw⟩ | ⟨raw2, msg2, hw⟩
              · rcases List.mem_cons.mp hw with h | h
                · injection h with h1 h2 h3
                  subst h1
                  exact List.mem_cons_of_mem _
                    ((mem_maybeProgress _ _ _).mpr (Or.inl ⟨hm, rfl⟩))
                · rcases (mem_maybeProgress _ _ _).mp h with ⟨-, hev⟩ | h2
                  · exact absurd hev (by simp)
                  · exact List.mem_cons_of_mem _ ((mem_maybeProgress _ _ _).mpr
                      (Or.inr ((ih (n + 1) _ m).mpr ⟨hm, Or.inl ⟨v2, raw2, h2⟩⟩)))
              · rcases List.mem_cons.mp hw with h | h
                · exact absurd h (by simp)
                · rcases (mem_maybeProgress _ _ _).mp h with ⟨-, hev⟩ | h2
                  · exact absurd hev (by simp)
                  · exact List.mem_cons_of_mem _ ((mem_maybeProgress _ _ _).mpr
                      (Or.inr ((ih (n + 1) _ m).mpr ⟨hm, Or.inr ⟨raw2, msg2, h2⟩⟩)))
          · dsimp only
            constructor
            · intro hmem
              rcases List.mem_cons.mp hmem with h | h
              · exact absurd h (by simp)
              · rcases (mem_maybeProgress _ _ _).mp h with ⟨hn, hev⟩ | h2
                · injection hev with hm ht
                  subst hm
                  exact ⟨hn, Or.inr ⟨pyStrip l, "JSONDecodeError", List.mem_cons_self _ _⟩⟩
                · obtain ⟨hm, hwit⟩ := (ih (n + 1) _ m).mp h2
                  refine ⟨hm, ?_⟩
                  rcases hwit with ⟨v2, raw2, hw⟩ | ⟨raw2, msg2, hw⟩
                  · exact Or.inl ⟨v2, raw2, List.mem_cons_of_mem _
                      ((mem_maybeProgress _ _ _).mpr (Or.inr hw))⟩
                  · exact Or.inr ⟨raw2, msg2, List.mem_cons_of_mem _
                      ((mem_maybeProgress _ _ _).mpr (Or.inr hw))⟩
            · rintro ⟨hm, hwit⟩
              rcases hwit with ⟨v2, raw2, hw⟩ | ⟨raw2, msg2, hw⟩
              · rcases List.mem_cons.mp hw with h | h
                · exact absurd h (by simp)
                · rcases (mem_maybeProgress _ _ _).mp h with ⟨-, hev⟩ | h2
                  · exact absurd hev (by simp)
                  · exact List.mem_cons_of_mem _ ((mem_maybeProgress _ _ _).mpr
                      (Or.inr ((ih (n + 1) _ m).mpr ⟨hm, Or.inl ⟨v2, raw2, h2⟩⟩)))
              · rcases List.mem_cons.mp hw with h | h
                · injection h with h1 h2 h3
                  subst h1
                  exact List.mem_cons_of_mem _
                    ((mem_maybeProgress _ _ _).mpr (Or.inl ⟨hm, rfl⟩))
                · rcases (mem_maybeProgress _ _ _).mp h with ⟨-, hev⟩ | h2
                  · exact absurd hev (by simp)
                  · exact List.mem_cons_of_mem _ ((mem_maybeProgress _ _ _).mpr
                      (Or.inr ((ih (n + 1) _ m).mpr ⟨hm, Or.inr ⟨raw2, msg2, h2⟩⟩)))

/-! ## Records delivered by the loader (C3, C7) -/

theorem recordsOf_maybeProgress (n : Nat) (evs : List Event) :
    recordsOf (maybeProgress n evs) = recordsOf evs := by
  rw [maybeProgress]
  by_cases h : (n % 100 == 0) = true
  · rw [if_pos h, recordsOf, List.filterMap_cons]
    rfl
  · rw [if_neg h]

theorem recordsOf_cons_record (n : Nat) (v : Json) (raw : String) (evs : List Event) :
    recordsOf (Event.recordParsed n v raw :: evs) =
      ⟨n, v, raw⟩ :: recordsOf evs := by
  rw [recordsOf, List.filterMap_cons]
  rfl

theorem recordsOf_cons_failed (n : Nat) (raw msg : String) (evs : List Event) :
    recordsOf (Event.parseFailed n raw msg :: evs) = recordsOf evs := by
  rw [recordsOf, List.filterMap_cons]
  rfl

/-- Every record the loop delivers carries, as `raw_text`, the
whitespace-stripped text of the source line at its 1-based ordinal, and its
value is the parse of that stripped text. -/
theorem runLines_records (stop : Nat → Bool) (maxL : Option Nat) :
    ∀ (ls : List String) (n : Nat) (st : Stats),
      ∀ r ∈ recordsOf (runLines stop maxL ls n st).2,
        ∃ i l, ls.get? i = some l ∧ r.line_num = n + i ∧
          r.raw = pyStrip l ∧ loads r.raw = some r.data := by
  intro ls
  induction ls with
  | nil => intro n st r hr; simp [runLines, recordsOf] at hr
  | cons l t ih =>
    intro n st r hr
    rw [runLines] at hr
    by_cases hstop : stop n = true
    · rw [if_pos hstop] at hr; simp [recordsOf] at hr
    · rw [if_neg hstop] at hr
      by_cases hmax : maxExceeded maxL n = true
      · rw [if_pos hmax] at hr; simp [recordsOf] at hr
      · rw [if_neg hmax] at hr
        by_cases hblank : (pyStrip l == "") = true
        · rw [if_pos hblank] at hr
          obtain ⟨i, l2, h1, h2, h3, h4⟩ := ih (n + 1) st r hr
          exact ⟨i + 1, l2, by simpa using h1, by omega, h3, h4⟩
        · rw [if_neg hblank] at hr
          split at hr
          · rename_i v hv
            dsimp only at hr
            rw [recordsOf_cons_record, recordsOf_maybeProgress] at hr
            rcases List.mem_cons.mp hr with h | h
            · subst h
              exact ⟨0, l, rfl, rfl, rfl, hv⟩
            · obtain ⟨i, l2, h1, h2, h3, h4⟩ := ih (n + 1) _ r h
              exact ⟨i + 1, l2, by simpa using h1, by omega, h3, h4⟩
          · dsimp only at hr
            rw [recordsOf_cons_failed, recordsOf_maybeProgress] at hr
            obtain ⟨i, l2, h1, h2, h3, h4⟩ := ih (n + 1) _ r hr
            exact ⟨i + 1, l2, by simpa using h1, by omega, h3, h4⟩

/-- Re-ingesting a sequence of serialized well-formed values yields exactly
those values, renumbered consecutively, with no errors and no stopping. -/
theorem runLines_reingest :
    ∀ (vs : List Json), (∀ v ∈ vs, Json.wfB v = true) → ∀ (n : Nat) (st : Stats),
      (recordsOf (runLines (fun _ => false) none (vs.map dumps) n st).2).map
        (fun r => r.data) = vs := by
  intro vs
  induction vs with
  | nil => intro _ n st; simp [runLines, recordsOf]
  | cons v t ih =>
    intro hwf n st
    rw [List.map_cons, runLines, if_neg (by simp), if_neg (by simp [maxExceeded])]
    rw [show pyStrip (dumps v) = dumps v from pyStrip_dumps v]
    rw [if_neg (by simp [dumps_ne_empty v])]
    rw [show loads (dumps v) = some v from
      loads_dumps v (hwf v (List.mem_cons_self _ _))]
    dsimp only
    rw [recordsOf_cons_record, recordsOf_maybeProgress, List.map_cons]
    rw [ih (fun v2 hv2 => hwf v2 (List.mem_cons_of_mem _ hv2)) (n + 1) _]

/-- Exporting with the full index range serializes every record in order. -/
theorem export_full (records : List LineRecord) :
    export_filtered records (List.range records.length) =
      records.map (fun r => dumps r.data) := by
  rw [export_filtered]
  induction records with
  | nil => simp
  | cons r t ih =>
    rw [List.length_cons, List.range_succ_eq_map, List.filterMap_cons]
    simp only [List.get?_cons_zero, Option.map_some']
    rw [List.filterMap_map]
    rw [show ((fun i => (((r :: t).get? i).map (fun r => dumps r.data))) ∘ Nat.succ) =
      (fun i => ((t.get? i).map (fun r => dumps r.data))) from rfl]
    rw [ih, List.map_cons]

/-! ## Properties of the filter engine -/

theorem filterLoop_sorted_mem (pred : LineRecord → Option Bool) :
    ∀ (rs : List LineRecord) (i : Nat),
      List.Pairwise (· < ·) (filterLoop pred i rs).1 ∧
      ∀ j ∈ (filterLoop pred i rs).1, i ≤ j ∧ j < i + rs.length := by
  intro rs
  induction rs with
  | nil => intro i; simp [filterLoop]
  | cons r t ih =>
    intro i
    rw [filterLoop]
    split
    · simp
    · rename_i b hb
      dsimp only
      obtain ⟨hs, hm⟩ := ih (i + 1)
      by_cases hbt : b = true
    -- the two cases only differ in whether index i is prepended
      · subst hbt
        rw [if_pos rfl]
        refine ⟨List.pairwise_cons.mpr ⟨fun j hj => by have := (hm j hj).1; omega, hs⟩, ?_⟩
        intro j hj
        rcases List.mem_cons.mp hj with h | h
        · subst h
          simp
        · have := hm j h
          constructor <;> [omega; (simp only [List.length_cons]; omega)]
      · rw [if_neg hbt]
        refine ⟨hs, fun j hj => ?_⟩
        have := hm j hj
        constructor <;> [omega; (simp only [List.length_cons]; omega)]

theorem filterLoop_pure (f : LineRecord → Bool) :
    ∀ (rs : List LineRecord) (i : Nat),
      (∀ j, j ∈ (filterLoop (fun r => some (f r)) i rs).1 ↔
        ∃ k r, rs.get? k = some r ∧ j = i + k ∧ f r = true) ∧
      (filterLoop (fun r => some (f r)) i rs).2 = false := by
  intro rs
  induction rs with
  | nil =>
    intro i
    refine ⟨fun j => ?_, rfl⟩
    simp [filterLoop]
  | cons r t ih =>
    intro i
    rw [filterLoop]
    dsimp only
    obtain ⟨hmem, hraised⟩ := ih (i + 1)
    refine ⟨fun j => ?_, hraised⟩
    by_cases hf : f r = true
    · rw [if_pos hf]
      constructor
      · intro hj
        rcases List.mem_cons.mp hj with h | h
        · exact ⟨0, r, rfl, by omega, hf⟩
        · obtain ⟨k, r2, h1, h2, h3⟩ := (hmem j).mp h
          exact ⟨k + 1, r2, by simpa using h1, by omega, h3⟩
      · rintro ⟨k, r2, h1, h2, h3⟩
        match k, h1 with
        | 0, h1 =>
          injection h1 with h1
          subst h1
          subst h2
          exact List.mem_cons_self _ _
        | k + 1, h1 =>
          exact List.mem_cons_of_mem _ ((hmem j).mpr ⟨k, r2, by simpa using h1, by omega, h3⟩)
    · rw [if_neg hf]
      constructor
      · intro hj
        obtain ⟨k, r2, h1, h2, h3⟩ := (hmem j).mp hj
        exact ⟨k + 1, r2, by simpa using h1, by omega, h3⟩
      · rintro ⟨k, r2, h1, h2, h3⟩
        match k, h1 with
        | 0, h1 =>
          injection h1 with h1
          subst h1
          exact absurd h3 hf
        | k + 1, h1 =>
          exact (hmem j).mpr ⟨k, r2, by simpa using h1, by omega, h3⟩

theorem filterLoop_mem_some (pred : LineRecord → Option Bool) :
    ∀ (rs : List LineRecord) (i j : Nat), j ∈ (filterLoop pred i rs).1 →
      ∃ k r, rs.get? k = some r ∧ j = i + k ∧ pred r = some true := by
  intro rs
  induction rs with
  | nil => intro i j hj; simp [filterLoop] at hj
  | cons r t ih =>
    intro i j hj
    rw [filterLoop] at hj
    split at hj
    · simp at hj
    · rename_i b hb
      dsimp only at hj
      by_cases hbt : b = true
      · subst hbt
        rw [if_pos rfl] at hj
        rcases List.mem_cons.mp hj with h | h
        · exact ⟨0, r, rfl, by omega, hb⟩
        · obtain ⟨k, r2, h1, h2, h3⟩ := ih (i + 1) j h
          exact ⟨k + 1, r2, by simpa using h1, by omega, h3⟩
      · rw [if_neg hbt] at hj
        obtain ⟨k, r2, h1, h2, h3⟩ := ih (i + 1) j hj
        exact ⟨k + 1, r2, by simpa using h1, by omega, h3⟩

theorem recordMatch_allFields (matcher : String → Bool) (searchText : String)
    (r : LineRecord) (hst : ¬ searchText = "") :
    recordMatch matcher true searchText "All Fields" r = some (matcher r.raw) := by
  rw [recordMatch]
  rw [if_pos (by decide : (("All Fields" : String) == "All Fields") = true)]
  dsimp only
  rw [if_pos (by simp [beq_eq_false_iff_ne, hst] :
    (true && !(searchText == "")) = true)]
  rw [if_pos (by decide : (("All Fields" : String) == "All Fields") = true)]
  dsimp only
  rw [if_pos rfl]

theorem recordMatch_field_obj (matcher : String → Bool) (useRegex : Bool)
    (searchText fieldFilter : String) (r : LineRecord)
    (fs : List (String × Json))
    (hff : (fieldFilter == "All Fields") = false) (hobj : r.data = Json.obj fs)
    (h : recordMatch matcher useRegex searchText fieldFilter r = some true) :
    fs.any (fun p => p.1 == fieldFilter) = true := by
  rw [recordMatch, if_neg (by simp [hff]), hobj] at h
  rw [show pyContains (Json.obj fs) fieldFilter =
    some (fs.any (fun p => p.1 == fieldFilter)) from rfl] at h
  dsimp only at h
  by_cases hany : fs.any (fun p => p.1 == fieldFilter) = true
  · exact hany
  · exfalso
    simp only [Bool.not_eq_true] at hany
    rw [hany] at h
    rw [if_neg (by simp)] at h
    exact absurd (by injection h) (by simp)

theorem apply_filters_invalid (compile : String → Option (String → Bool))
    (records : List LineRecord) (searchInput fieldFilter : String)
    (prev : List Nat) (hne : records ≠ []) (hst : ¬ pyStrip searchInput = "")
    (hcomp : compile (pyStrip searchInput) = none) :
    apply_filters compile records searchInput true fieldFilter prev =
      ⟨[], true, false⟩ := by
  rw [apply_filters, if_neg (by simp [List.isEmpty_iff, hne])]
  dsimp only
  rw [if_neg (by simp [beq_eq_false_iff_ne, hst])]
  rw [if_pos (by simp [beq_eq_false_iff_ne, hst])]
  rw [hcomp]

theorem apply_filters_allFields_regex (compile : String → Option (String → Bool))
    (matcher : String → Bool) (records : List LineRecord) (searchInput : String)
    (prev : List Nat) (hne : records ≠ []) (hst : ¬ pyStrip searchInput = "")
    (hcomp : compile (pyStrip searchInput) = some matcher) :
    (∀ j, j ∈ (apply_filters compile records searchInput true "All Fields" prev).filtered ↔
      ∃ r, records.get? j = some r ∧ matcher r.raw = true) ∧
    (apply_filters compile records searchInput true "All Fields" prev).invalidRegex = false ∧
    (apply_filters compile records searchInput true "All Fields" prev).raised = false := by
  rw [apply_filters, if_neg (by simp [List.isEmpty_iff, hne])]
  dsimp only
  rw [if_neg (by simp [beq_eq_false_iff_ne, hst])]
  rw [if_pos (by simp [beq_eq_false_iff_ne, hst])]
  rw [hcomp]
  dsimp only
  have hpred : recordMatch matcher true (pyStrip searchInput) "All Fields" =
      (fun r => some (matcher r.raw)) := by
    funext r
    exact recordMatch_allFields matcher _ r hst
  rw [hpred]
  obtain ⟨hmem, hraised⟩ := filterLoop_pure (fun r => matcher r.raw) records 0
  refine ⟨fun j => ?_, rfl, hraised⟩
  rw [hmem j]
  constructor
  · rintro ⟨k, r, h1, h2, h3⟩
    exact ⟨r, by rw [h2]; simpa using h1, h3⟩
  · rintro ⟨r, h1, h2⟩
    exact ⟨j, r, h1, by omega, h2⟩

theorem apply_filters_field_scope (compile : String → Option (String → Bool))
    (records : List LineRecord) (searchInput fieldFilter : String)
    (useRegex : Bool) (prev : List Nat)
    (hff : (fieldFilter == "All Fields") = false) :
    ∀ j r fs, j ∈ (apply_filters compile records searchInput useRegex fieldFilter
        prev).filtered →
      records.get? j = some r → r.data = Json.obj fs →
      fs.any (fun p => p.1 == fieldFilter) = true := by
  intro j r fs hj hget hobj
  rw [apply_filters] at hj
  by_cases hemp : records.isEmpty = true
  · exfalso
    rw [List.isEmpty_iff] at hemp
    rw [hemp] at hget
    simp at hget
  · rw [if_neg hemp] at hj
    dsimp only at hj
    rw [if_neg (by simp [hff])] at hj
    by_cases hre : (useRegex && !(pyStrip searchInput == "")) = true
    · rw [if_pos hre] at hj
      split at hj
      · simp at hj
      · rename_i matcher hcomp
        dsimp only at hj
        obtain ⟨k, r2, h1, h2, h3⟩ := filterLoop_mem_some _ records 0 j hj
        have hk : k = j := by omega
        subst hk
        have hr : r2 = r := by
          rw [h1] at hget
          injection hget
        subst hr
        exact recordMatch_field_obj _ _ _ _ _ _ hff hobj h3
    · rw [if_neg hre] at hj
      dsimp only at hj
      obtain ⟨k, r2, h1, h2, h3⟩ := filterLoop_mem_some _ records 0 j hj
      have hk : k = j := by omega
      subst hk
      have hr : r2 = r := by
        rw [h1] at hget
        injection hget
      subst hr
      exact recordMatch_field_obj _ _ _ _ _ _ hff hobj h3

/-- The filter result is always strictly ascending and in range, provided
the incoming `filtered_indices` (returned unchanged when no records are
loaded) already is — which is an invariant of the application, since the
list starts empty and is only ever replaced by results of this function or
by the full range. -/
theorem apply_filters_sorted (compile : String → Option (String → Bool))
    (records : List LineRecord) (searchInput fieldFilter : String)
    (useRegex : Bool) (prev : List Nat)
    (hsort : List.Pairwise (· < ·) prev)
    (hmem : ∀ j ∈ prev, j < records.length) :
    List.Pairwise (· < ·)
      (apply_filters compile records searchInput useRegex fieldFilter prev).filtered ∧
    ∀ j ∈ (apply_filters compile records searchInput useRegex fieldFilter
        prev).filtered, j < records.length := by
  rw [apply_filters]
  by_cases hemp : records.isEmpty = true
  · rw [if_pos hemp]
    exact ⟨hsort, hmem⟩
  · rw [if_neg hemp]
    dsimp only
    by_cases hid : ((pyStrip searchInput == "") && (fieldFilter == "All Fields")) = true
    · rw [if_pos hid]
      exact ⟨List.pairwise_lt_range _, fun j hj => List.mem_range.mp hj⟩
    · rw [if_neg hid]
      by_cases hre : (useRegex && !(pyStrip searchInput == "")) = true
      · rw [if_pos hre]
        split
        · exact ⟨List.Pairwise.nil, by simp⟩
        · rename_i matcher hcomp
          dsimp only
          obtain ⟨hs, hm⟩ := filterLoop_sorted_mem
            (recordMatch matcher useRegex (pyStrip searchInput) fieldFilter) records 0
          exact ⟨hs, fun j hj => by have := (hm j hj).2; omega⟩
      · rw [if_neg hre]
        dsimp only
        obtain ⟨hs, hm⟩ := filterLoop_sorted_mem
          (recordMatch (fun _ => false) useRegex (pyStrip searchInput) fieldFilter)
          records 0
        exact ⟨hs, fun j hj => by have := (hm j hj).2; omega⟩

/-! ## Transfer lemmas from the loop to a whole `runLoader` run -/

theorem recordsOf_append_completed (evs : List Event) (st : Stats) :
    recordsOf (evs ++ [Event.completed st]) = recordsOf evs := by
  rw [recordsOf, recordsOf, List.filterMap_append]
  simp [List.filterMap]

theorem runLoader_records (lines : List String) (stop : Nat → Bool) (maxL : Option Nat) :
    recordsOf (runLoader (.ok lines) stop maxL).2 =
      recordsOf (runLines stop maxL lines 1 initStats).2 := by
  rw [runLoader]
  dsimp only
  rw [recordsOf_append_completed]

/-- A demonstration instance for the abstracted `re.compile`: it rejects
the malformed pattern `"("` (Python raises `re.error` on it) and compiles
everything else to a matcher; used to instantiate counterexamples and
witnesses. -/
def demoCompile : String → Option (String → Bool) :=
  fun p => if p == "(" then none else some (fun _ => false)

/-! ## The claims -/

/-- **C1, counterexample.**  The claim "valid_lines + error_lines ==
total_lines, with blank lines excluded from all three counts" is false for
the input file whose lines are `["", "1"]`: the blank first line is skipped,
but `total_lines` stores the 1-based *file ordinal* of the last processed
non-blank line (here 2), while only one line was counted as valid, so
`1 + 0 ≠ 2`. -/
theorem c1_counterexample :
    (runLoader (.ok ["", "1"]) (fun _ => false) none).1.total_lines = 2 ∧
    (runLoader (.ok ["", "1"]) (fun _ => false) none).1.valid_lines = 1 ∧
    (runLoader (.ok ["", "1"]) (fun _ => false) none).1.error_lines = 0 ∧
    ¬ ((runLoader (.ok ["", "1"]) (fun _ => false) none).1.valid_lines +
        (runLoader (.ok ["", "1"]) (fun _ => false) none).1.error_lines =
       (runLoader (.ok ["", "1"]) (fun _ => false) none).1.total_lines) := by
  refine ⟨rfl, rfl, rfl, by decide⟩

/-- **C1, amended.**  For input files with no blank lines, after the run
completes (under any cooperative-stop schedule and any `max_lines`
setting), `valid_lines + error_lines = total_lines`.  In general blank
lines inflate `total_lines`, which records the file ordinal of the last
processed non-blank line, not a count. -/
theorem c1_theorem (lines : List String) (stop : Nat → Bool) (maxL : Option Nat)
    (hnb : ∀ l ∈ lines, ¬ pyStrip l = "") :
    (runLoader (.ok lines) stop maxL).1.valid_lines +
      (runLoader (.ok lines) stop maxL).1.error_lines =
      (runLoader (.ok lines) stop maxL).1.total_lines := by
  rw [runLoader]
  dsimp only
  exact (runLines_total stop maxL lines 1 initStats hnb rfl rfl).symm

/-- Witness for `c1_theorem` on a concrete blank-free file with one valid
and one malformed line. -/
theorem c1_witness :
    (runLoader (.ok ["1", "x"]) (fun _ => false) none).1.valid_lines +
      (runLoader (.ok ["1", "x"]) (fun _ => false) none).1.error_lines =
      (runLoader (.ok ["1", "x"]) (fun _ => false) none).1.total_lines :=
  c1_theorem ["1", "x"] (fun _ => false) none (by decide)

/-- **C2, counterexample.**  The claim that an invalid regex "leaves the
previously computed FilteredIndexSet unchanged" is false: `apply_filters`
resets `self.filtered_indices` to `[]` *before* attempting to compile the
pattern, so after the `re.error` early return the previous value `[0]` has
been replaced by `[]`. -/
theorem c2_counterexample :
    apply_filters demoCompile [⟨1, Json.int 1, "1"⟩] "(" true "All Fields" [0] =
      ⟨[], true, false⟩ ∧
    ([] : List Nat) ≠ [0] := by
  refine ⟨?_, by decide⟩
  rfl

/-- **C2, amended.**  When `is_regex` is set and the (stripped) query text
is a non-empty pattern the engine rejects, `apply_filters` reports the
"Invalid regex pattern" notice and leaves `filtered_indices` *empty* — the
list is cleared before compilation, so the previous filtered result is
lost, not retained.  (The visible tree/table widgets are not refreshed on
this path, so the stale previous rendering remains on screen, but the
stored FilteredIndexSet itself is `[]`.) -/
theorem c2_theorem (compile : String → Option (String → Bool))
    (records : List LineRecord) (searchInput fieldFilter : String)
    (prev : List Nat) (hne : records ≠ []) (hst : ¬ pyStrip searchInput = "")
    (hcomp : compile (pyStrip searchInput) = none) :
    apply_filters compile records searchInput true fieldFilter prev =
      ⟨[], true, false⟩ :=
  apply_filters_invalid compile records searchInput fieldFilter prev hne hst hcomp

/-- Witness for `c2_theorem` with the malformed pattern `"("`. -/
theorem c2_witness :
    apply_filters demoCompile [⟨1, Json.int 1, "1"⟩] "(" true "All Fields" [0] =
      ⟨[], true, false⟩ :=
  c2_theorem demoCompile [⟨1, Json.int 1, "1"⟩] "(" "All Fields" [0]
    (List.cons_ne_nil _ _) (by decide) rfl

/-- **C3, counterexample.**  The claim that `raw_text` equals "the original
line string exactly as read from the file" is false: the loop strips the
line before parsing and emits the *stripped* text.  For the file whose only
line is `" 1"` the delivered record carries `raw_text = "1" ≠ " 1"`. -/
theorem c3_counterexample :
    (recordsOf (runLoader (.ok [" 1"]) (fun _ => false) none).2).map
      (fun r => r.raw) = ["1"] ∧
    ("1" : String) ≠ " 1" := by
  refine ⟨rfl, by decide⟩

/-- **C3, amended.**  Every record delivered by `RecordParsed` carries as
`raw_text` the *whitespace-stripped* text of its source line (and its value
is the parse of that stripped text); and unscoped text filtering matches
against exactly that stored raw text — not a re-serialized form: in regex
mode with no field scope, an index is in the result precisely when the
matcher accepts the record's `raw_text`. -/
theorem c3_theorem :
    (∀ (lines : List String) (stop : Nat → Bool) (maxL : Option Nat),
      ∀ r ∈ recordsOf (runLoader (.ok lines) stop maxL).2,
        ∃ i l, lines.get? i = some l ∧ r.line_num = 1 + i ∧
          r.raw = pyStrip l ∧ loads r.raw = some r.data) ∧
    (∀ (compile : String → Option (String → Bool)) (matcher : String → Bool)
       (records : List LineRecord) (searchInput : String) (prev : List Nat),
      records ≠ [] → ¬ pyStrip searchInput = "" →
      compile (pyStrip searchInput) = some matcher →
      ∀ j, j ∈ (apply_filters compile records searchInput true "All Fields"
          prev).filtered ↔
        ∃ r, records.get? j = some r ∧ matcher r.raw = true) := by
  constructor
  · intro lines stop maxL r hr
    rw [runLoader_records] at hr
    exact runLines_records stop maxL lines 1 initStats r hr
  · intro compile matcher records searchInput prev hne hst hcomp j
    exact (apply_filters_allFields_regex compile matcher records searchInput prev
      hne hst hcomp).1 j

/-- Witness for `c3_theorem`: the single-line file `["1"]` and a one-record
filter call, both fully concrete. -/
theorem c3_witness :
    (∃ i l, (["1"] : List String).get? i = some l ∧
      (⟨1, Json.int 1, "1"⟩ : LineRecord).line_num = 1 + i ∧
      (⟨1, Json.int 1, "1"⟩ : LineRecord).raw = pyStrip l ∧
      loads (⟨1, Json.int 1, "1"⟩ : LineRecord).raw =
        some (⟨1, Json.int 1, "1"⟩ : LineRecord).data) ∧
    ((0 : Nat) ∈ (apply_filters demoCompile [⟨1, Json.int 1, "1"⟩] "x" true
        "All Fields" []).filtered ↔
      ∃ r, ([⟨1, Json.int 1, "1"⟩] : List LineRecord).get? 0 = some r ∧
        (fun _ => false) r.raw = true) := by
  constructor
  · exact c3_theorem.1 ["1"] (fun _ => false) none ⟨1, Json.int 1, "1"⟩
      (by exact List.mem_cons_self _ _)
  · exact c3_theorem.2 demoCompile (fun _ => false) [⟨1, Json.int 1, "1"⟩] "x" []
      (List.cons_ne_nil _ _) (by decide) rfl 0

/-- **C4, counterexample.**  The claim that, under a field scope, "every
record lacking that key — including records whose top-level parsed value is
not an object — is excluded" is false: the membership test is Python's `in`
on the parsed value, which for a *string* value is substring containment.
The record parsed from the line `"b"` (a JSON string, not an object) passes
the field filter `"b"` with an empty query text and lands in the
FilteredIndexSet. -/
theorem c4_counterexample :
    (apply_filters demoCompile [⟨1, Json.str "b", "\"b\""⟩] "" false "b"
      []).filtered = [0] ∧
    ∀ fs, Json.str "b" ≠ Json.obj fs := by
  refine ⟨rfl, fun fs h => Json.noConfusion h⟩

/-- **C4, amended.**  Restricted to record sets whose parsed values are all
objects (which is how the schema-aware field list is populated), the claim
holds: with a field scope set, any index in the FilteredIndexSet points at
a record whose object carries the scoped key; records lacking the key are
excluded regardless of their text.  (For non-object values Python's `in`
gives substring/element membership — or raises — instead, see the
counterexample.) -/
theorem c4_theorem (compile : String → Option (String → Bool))
    (records : List LineRecord) (searchInput fieldFilter : String)
    (useRegex : Bool) (prev : List Nat)
    (hff : (fieldFilter == "All Fields") = false) :
    ∀ j r fs, j ∈ (apply_filters compile records searchInput useRegex fieldFilter
        prev).filtered →
      records.get? j = some r → r.data = Json.obj fs →
      fs.any (fun p => p.1 == fieldFilter) = true :=
  apply_filters_field_scope compile records searchInput fieldFilter useRegex prev hff

/-- Witness for `c4_theorem`: a one-record set whose value is the object
`{"b": "x"}`, filtered with field scope `"b"`. -/
theorem c4_witness :
    ([("b", Json.str "x")] : List (String × Json)).any (fun p => p.1 == "b") = true :=
  c4_theorem demoCompile [⟨1, Json.obj [("b", Json.str "x")], "raw"⟩] "" "b" false []
    (by decide) 0 ⟨1, Json.obj [("b", Json.str "x")], "raw"⟩ [("b", Json.str "x")]
    (by exact List.mem_cons_self _ _) rfl rfl

/-- **C5, confirmed.**  For every run (including the file-open-failure run)
and every field key, the aggregated schema satisfies
`field_counts[k] ≤ valid_lines` and the total of the field's type histogram
over the closed tag set equals `field_counts[k]`.  Because the input lines,
the stop schedule and the cutoff are universally quantified, every state
the loop passes through during a run is the final state of the run on the
corresponding prefix, so the invariant holds at every point during and
after ingestion. -/
theorem c5_theorem (openResult : Except String (List String)) (stop : Nat → Bool)
    (maxL : Option Nat) (k : String) :
    (runLoader openResult stop maxL).1.key_counts k ≤
      (runLoader openResult stop maxL).1.valid_lines ∧
    histSum (runLoader openResult stop maxL).1 k =
      (runLoader openResult stop maxL).1.key_counts k := by
  match openResult with
  | .error msg => exact ⟨Nat.le_refl 0, rfl⟩
  | .ok lines =>
    rw [runLoader]
    dsimp only
    exact runLines_schema stop maxL lines 1 initStats
      (fun k2 => ⟨Nat.le_refl 0, rfl⟩) k

/-- **C6, confirmed.**  Every ingestion run emits exactly one `Completed`
event and it is the last event — for normal end of file, `max_lines`
cutoff, cooperative stop and file-open failure alike; the final statistics
match the per-line events actually emitted (`valid_lines` = number of
`RecordParsed` events, `error_lines` = number of line-level `ParseFailed`
events), and on a file-open failure the event sequence is exactly the
sentinel `ParseFailed` with line number 0 followed by `Completed`. -/
theorem c6_theorem (openResult : Except String (List String)) (stop : Nat → Bool)
    (maxL : Option Nat) :
    (runLoader openResult stop maxL).2.countP isCompleted = 1 ∧
    (runLoader openResult stop maxL).2.getLast? =
      some (Event.completed (runLoader openResult stop maxL).1) ∧
    (runLoader openResult stop maxL).1.valid_lines =
      (runLoader openResult stop maxL).2.countP isRecordParsed ∧
    (runLoader openResult stop maxL).1.error_lines =
      (runLoader openResult stop maxL).2.countP isLineParseFailed ∧
    (∀ msg, openResult = .error msg →
      (runLoader openResult stop maxL).2 =
        [Event.parseFailed 0 "" ("File error: " ++ msg),
         Event.completed initStats]) := by
  match openResult with
  | .error msg =>
    refine ⟨rfl, rfl, rfl, rfl, ?_⟩
    intro msg2 heq
    injection heq with heq
    subst heq
    rfl
  | .ok lines =>
    obtain ⟨h1, h2, h3, h4⟩ := runLines_counts stop maxL lines 1 initStats (by omega)
    rw [runLoader]
    dsimp only
    refine ⟨?_, ?_, ?_, ?_, ?_⟩
    · rw [List.countP_append, h3]
      rfl
    · rw [List.getLast?_concat]
    · rw [List.countP_append, h1]
      simp [initStats, List.countP_cons, isRecordParsed]
    · rw [List.countP_append, h2]
      simp [initStats, List.countP_cons, isLineParseFailed]
    · intro msg heq
      cases heq

/-- Witness for the file-open-failure conjunct of `c6_theorem`. -/
theorem c6_witness :
    (runLoader (.error "boom") (fun _ => false) none).2 =
      [Event.parseFailed 0 "" ("File error: " ++ "boom"),
       Event.completed initStats] :=
  (c6_theorem (.error "boom") (fun _ => false) none).2.2.2.2 "boom" rfl

/-- **C7, confirmed.**  Exporting the full record set of any ingestion run
to JSONL and re-ingesting the exported lines yields a record set with the
identical sequence of `value` payloads (line numbers are renumbered from 1
by the re-ingestion, and blank lines cannot arise because serialized
records are never blank). -/
theorem c7_theorem (lines : List String) (stop : Nat → Bool) (maxL : Option Nat) :
    (recordsOf (runLoader (.ok (export_filtered
          (recordsOf (runLoader (.ok lines) stop maxL).2)
          (List.range (recordsOf (runLoader (.ok lines) stop maxL).2).length)))
        (fun _ => false) none).2).map (fun r => r.data) =
    (recordsOf (runLoader (.ok lines) stop maxL).2).map (fun r => r.data) := by
  have hwf : ∀ v ∈ (recordsOf (runLoader (.ok lines) stop maxL).2).map
      (fun r => r.data), Json.wfB v = true := by
    intro v hv
    rw [List.mem_map] at hv
    obtain ⟨r, hr, hveq⟩ := hv
    rw [runLoader_records] at hr
    obtain ⟨i, l, -, -, -, h4⟩ := runLines_records stop maxL lines 1 initStats r hr
    rw [← hveq]
    exact loads_wf _ _ h4
  rw [export_full]
  rw [show (recordsOf (runLoader (.ok lines) stop maxL).2).map (fun r => dumps r.data) =
    ((recordsOf (runLoader (.ok lines) stop maxL).2).map (fun r => r.data)).map dumps from by
      rw [List.map_map]
      rfl]
  rw [runLoader_records]
  exact runLines_reingest _ hwf 1 initStats

/-- **C8, confirmed.**  `apply_filters` is a pure function of its inputs —
calling it twice with the same arguments gives syntactically the same
result — and its FilteredIndexSet is always a strictly ascending sequence
of in-range indices (preserving original record order), given that the
incoming `filtered_indices` value already satisfies that invariant (it
starts as `[]` and is only ever replaced by outputs of this function or by
the full range, so the invariant is maintained by the application). -/
theorem c8_theorem (compile : String → Option (String → Bool))
    (records : List LineRecord) (searchInput fieldFilter : String)
    (useRegex : Bool) (prev : List Nat)
    (hsort : List.Pairwise (· < ·) prev)
    (hmem : ∀ j ∈ prev, j < records.length) :
    apply_filters compile records searchInput useRegex fieldFilter prev =
      apply_filters compile records searchInput useRegex fieldFilter prev ∧
    List.Pairwise (· < ·)
      (apply_filters compile records searchInput useRegex fieldFilter prev).filtered ∧
    ∀ j ∈ (apply_filters compile records searchInput useRegex fieldFilter
        prev).filtered, j < records.length :=
  ⟨rfl,
   (apply_filters_sorted compile records searchInput fieldFilter useRegex prev
     hsort hmem).1,
   (apply_filters_sorted compile records searchInput fieldFilter useRegex prev
     hsort hmem).2⟩

/-- Witness for `c8_theorem` on a concrete two-record set. -/
theorem c8_witness :
    List.Pairwise (· < ·)
      (apply_filters demoCompile
        [⟨1, Json.int 1, "1"⟩, ⟨2, Json.int 2, "2"⟩] "x" false "All Fields"
        []).filtered :=
  (c8_theorem demoCompile [⟨1, Json.int 1, "1"⟩, ⟨2, Json.int 2, "2"⟩] "x"
    "All Fields" false [] List.Pairwise.nil (by simp)).2.1

/-- **C9, counterexample.**  The claim that `Progress` is emitted "every
100th successfully-processed line" is false: the cadence is keyed to the
1-based *file ordinal*.  For a file of 99 blank lines followed by one valid
line, the single valid line has file ordinal 100, so a `Progress` event is
emitted after only one successfully-processed line. -/
theorem c9_counterexample :
    (runLoader (.ok (List.replicate 99 "" ++ ["1"])) (fun _ => false) none).2.countP
      isProgress = 1 ∧
    (runLoader (.ok (List.replicate 99 "" ++ ["1"])) (fun _ => false) none).2.countP
      isRecordParsed = 1 ∧
    (runLoader (.ok (List.replicate 99 "" ++ ["1"])) (fun _ => false) none).2.countP
      isLineParseFailed = 0 := by
  refine ⟨by decide, by decide, by decide⟩

/-- **C9, amended.**  During a run, a `Progress` event with ordinal `m` is
emitted exactly when a non-blank line with 1-based file ordinal `m`
divisible by 100 was processed — whether it parsed or failed; so the
cadence is keyed to the file line ordinal (blank lines emit nothing, and
error lines do trigger the cadence), not to the count of
successfully-processed lines. -/
theorem c9_theorem (lines : List String) (stop : Nat → Bool) (maxL : Option Nat)
    (m : Nat) :
    Event.progress m (-1) ∈ (runLoader (.ok lines) stop maxL).2 ↔
      (m % 100 = 0 ∧
        ((∃ v raw, Event.recordParsed m v raw ∈ (runLoader (.ok lines) stop maxL).2) ∨
         (∃ raw msg, Event.parseFailed m raw msg ∈
            (runLoader (.ok lines) stop maxL).2))) := by
  rw [runLoader]
  dsimp only
  have hmemP : ∀ ev : Event, isCompleted ev = false →
      (ev ∈ (runLines stop maxL lines 1 initStats).2 ++
        [Event.completed (runLines stop maxL lines 1 initStats).1] ↔
       ev ∈ (runLines stop maxL lines 1 initStats).2) := by
    intro ev hev
    rw [List.mem_append, List.mem_singleton]
    constructor
    · rintro (h | h)
      · exact h
      · subst h
        simp [isCompleted] at hev
    · exact Or.inl
  rw [hmemP (Event.progress m (-1)) rfl]
  rw [runLines_progress stop maxL lines 1 initStats m]
  constructor
  · rintro ⟨hm, hwit⟩
    refine ⟨hm, ?_⟩
    rcases hwit with ⟨v, raw, hw⟩ | ⟨raw, msg, hw⟩
    · exact Or.inl ⟨v, raw, (hmemP (Event.recordParsed m v raw) rfl).mpr hw⟩
    · exact Or.inr ⟨raw, msg, (hmemP (Event.parseFailed m raw msg) rfl).mpr hw⟩
  · rintro ⟨hm, hwit⟩
    refine ⟨hm, ?_⟩
    rcases hwit with ⟨v, raw, hw⟩ | ⟨raw, msg, hw⟩
    · exact Or.inl ⟨v, raw, (hmemP (Event.recordParsed m v raw) rfl).mp hw⟩
    · exact Or.inr ⟨raw, msg, (hmemP (Event.parseFailed m raw msg) rfl).mp hw⟩

/-- **C10, confirmed.**  The sentinel `ParseFailed` event of a file-level
failure does not touch `error_lines`: in every run `error_lines` equals the
number of *line-level* `ParseFailed` events (line number ≠ 0), and in the
file-open-failure run exactly one sentinel `ParseFailed` (line number 0) is
emitted while the final statistics report `error_lines = 0`. -/
theorem c10_theorem (msg : String) (stop : Nat → Bool) (maxL : Option Nat) :
    (runLoader (.error msg) stop maxL).2.countP isFileFailed = 1 ∧
    (runLoader (.error msg) stop maxL).1.error_lines = 0 ∧
    (runLoader (.error msg) stop maxL).2.countP isLineParseFailed = 0 ∧
    ∀ (openResult : Except String (List String)),
      (runLoader openResult stop maxL).1.error_lines =
        (runLoader openResult stop maxL).2.countP isLineParseFailed := by
  refine ⟨rfl, rfl, rfl, ?_⟩
  intro openResult
  match openResult with
  | .error msg2 => rfl
  | .ok lines =>
    obtain ⟨-, h2, -, -⟩ := runLines_counts stop maxL lines 1 initStats (by omega)
    rw [runLoader]
    dsimp only
    rw [List.countP_append, h2]
    simp [initStats, List.countP_cons, isLineParseFailed]

/-! ## Supporting fact: serialized records never contain a newline, so the
JSONL file written by the export (one `dumps` result plus `'\n'` per
record) has exactly the modelled line sequence. -/

theorem hexChar_ne_newline (d : Nat) : ¬ hexChar d = '\n' := by
  unfold hexChar
  split <;> decide

theorem digitChar_ne_newline (d : Nat) : ¬ digitChar d = '\n' := by
  unfold digitChar
  split <;> decide

theorem escChar_no_newline (c : Char) : '\n' ∉ escChar c := by
  rw [escChar]
  split_ifs with h1 h2 h3 h4 h5 h6 h7 h8
  · decide
  · decide
  · decide
  · decide
  · decide
  · decide
  · decide
  · intro hmem
    simp only [List.mem_cons, List.mem_singleton] at hmem
    rcases hmem with h | h | h | h | h | h
    · exact absurd h.symm (by decide)
    · exact absurd h.symm (by decide)
    · exact absurd h.symm (by decide)
    · exact absurd h.symm (by decide)
    · exact hexChar_ne_newline _ h.symm
    · rcases h with h | h
      · exact hexChar_ne_newline _ h.symm
      · simp at h
  · intro hmem
    rcases List.mem_singleton.mp hmem with h
    exact h3 h.symm

theorem escapeL_no_newline (cs : List Char) : '\n' ∉ escapeL cs := by
  induction cs with
  | nil => simp [escapeL]
  | cons c t ih =>
    rw [escapeL_cons]
    intro hmem
    rcases List.mem_append.mp hmem with h | h
    · exact escChar_no_newline c h
    · exact ih h

theorem natToChars_no_newline (n : Nat) : '\n' ∉ natToChars n := by
  rw [natToChars]
  intro hmem
  obtain ⟨d, -, hd⟩ := List.mem_map.mp hmem
  exact digitChar_ne_newline d hd

theorem intToChars_no_newline (n : Int) : '\n' ∉ intToChars n := by
  rw [intToChars]
  split
  · intro hmem
    rcases List.mem_cons.mp hmem with h | h
    · exact absurd h (by decide)
    · exact natToChars_no_newline _ h
  · exact natToChars_no_newline _

theorem dumpsL_no_newline_mutual (N : Nat) :
    (∀ v : Json, jfuel v ≤ N → '\n' ∉ dumpsL v) ∧
    (∀ xs : List Json, jfuelArr xs ≤ N → '\n' ∉ dumpsArrTail xs) ∧
    (∀ fs : List (String × Json), jfuelObj fs ≤ N → '\n' ∉ dumpsObjTail fs) := by
  induction N using Nat.strong_induction_on with
  | _ N IH =>
    refine ⟨?_, ?_, ?_⟩
    · intro v hN
      cases v with
      | null => decide
      | bool b => cases b <;> decide
      | int n => exact intToChars_no_newline n
      | str s =>
        rw [show dumpsL (Json.str s) = '"' :: (escapeL s.data ++ ['"']) from by
          simp [dumpsL]]
        intro hmem
        rcases List.mem_cons.mp hmem with h | h
        · exact absurd h (by decide)
        · rcases List.mem_append.mp h with h | h
          · exact escapeL_no_newline _ h
          · exact absurd (List.mem_singleton.mp h) (by decide)
      | arr xs =>
        cases xs with
        | nil => decide
        | cons x t =>
          simp only [jfuel, jfuelArr] at hN
          rw [show dumpsL (Json.arr (x :: t)) = '[' :: (dumpsL x ++ dumpsArrTail t)
            from by simp [dumpsL]]
          intro hmem
          rcases List.mem_cons.mp hmem with h | h
          · exact absurd h (by decide)
          · rcases List.mem_append.mp h with h | h
            · exact (IH (jfuel x) (by omega)).1 x le_rfl h
            · exact (IH (jfuelArr t) (by omega)).2.1 t le_rfl h
      | obj fs =>
        cases fs with
        | nil => decide
        | cons m t =>
          obtain ⟨k, v⟩ := m
          simp only [jfuel, jfuelObj] at hN
          rw [show dumpsL (Json.obj ((k, v) :: t)) =
            '{' :: (dumpsMember (k, v) ++ dumpsObjTail t) from by simp [dumpsL]]
          intro hmem
          rcases List.mem_cons.mp hmem with h | h
          · exact absurd h (by decide)
          · rcases List.mem_append.mp h with h | h
            · rw [show dumpsMember (k, v) =
                '"' :: (escapeL k.data ++ ('"' :: ':' :: ' ' :: dumpsL v)) from rfl] at h
              rcases List.mem_cons.mp h with h | h
              · exact absurd h (by decide)
              · rcases List.mem_append.mp h with h | h
                · exact escapeL_no_newline _ h
                · rcases List.mem_cons.mp h with h | h
                  · exact absurd h (by decide)
                  · rcases List.mem_cons.mp h with h | h
                    · exact absurd h (by decide)
                    · rcases List.mem_cons.mp h with h | h
                      · exact absurd h (by decide)
                      · exact (IH (jfuel v) (by omega)).1 v le_rfl h
            · exact (IH (jfuelObj t) (by omega)).2.2 t le_rfl h
    · intro xs hN
      cases xs with
      | nil => decide
      | cons x t =>
        simp only [jfuelArr] at hN
        rw [show dumpsArrTail (x :: t) = ',' :: ' ' :: (dumpsL x ++ dumpsArrTail t)
          from rfl]
        intro hmem
        rcases List.mem_cons.mp hmem with h | h
        · exact absurd h (by decide)
        · rcases List.mem_cons.mp h with h | h
          · exact absurd h (by decide)
          · rcases List.mem_append.mp h with h | h
            · exact (IH (jfuel x) (by omega)).1 x le_rfl h
            · exact (IH (jfuelArr t) (by omega)).2.1 t le_rfl h
    · intro fs hN
      cases fs with
      | nil => decide
      | cons m t =>
        obtain ⟨k, v⟩ := m
        simp only [jfuelObj] at hN
        rw [show dumpsObjTail ((k, v) :: t) =
          ',' :: ' ' :: (dumpsMember (k, v) ++ dumpsObjTail t) from rfl]
        intro hmem
        rcases List.mem_cons.mp hmem with h | h
        · exact absurd h (by decide)
        · rcases List.mem_cons.mp h with h | h
          · exact absurd h (by decide)
          · rcases List.mem_append.mp h with h | h
            · rw [show dumpsMember (k, v) =
                '"' :: (escapeL k.data ++ ('"' :: ':' :: ' ' :: dumpsL v)) from rfl] at h
              rcases List.mem_cons.mp h with h | h
              · exact absurd h (by decide)
              · rcases List.mem_append.mp h with h | h
                · exact escapeL_no_newline _ h
                · rcases List.mem_cons.mp h with h | h
                  · exact absurd h (by decide)
                  · rcases List.mem_cons.mp h with h | h
                    · exact absurd h (by decide)
                    · rcases List.mem_cons.mp h with h | h
                      · exact absurd h (by decide)
                      · exact (IH (jfuel v) (by omega)).1 v le_rfl h
            · exact (IH (jfuelObj t) (by omega)).2.2 t le_rfl h

/-- No serialized record contains a newline. -/
theorem dumpsL_no_newline (v : Json) : '\n' ∉ dumpsL v :=
  (dumpsL_no_newline_mutual (jfuel v)).1 v le_rfl
